import Mathlib

/-!
Verification of the `wools` Wordle helper library.

The Rust sources are shallowly embedded: a `Word` is a `List Char` (the
source's `Word` invariant guarantees exactly five lowercase characters, so
theorems carry explicit length-5 hypotheses), the `HashMap<char, usize>`
multisets are functions `Char → Option Nat` (an absent key is `none`), and
fallible operations (`unwrap`, `try_into`) are modelled with `Option`:
a `none` result stands for a panic of the Rust code.
-/

set_option autoImplicit false

namespace Wools

/-- `Hint` from `src/pattern.rs`: per-position feedback.
`Green` = Correct, `Yellow` = Present, `Black` = Absent. -/
inductive Hint where
  | Green
  | Yellow
  | Black
deriving DecidableEq, Repr

/-- A `Word` is its sequence of normalized characters (`Word::chars`). -/
abbrev Word := List Char

/-- `Word::SIZE` from `src/word.rs`. -/
def Word.SIZE : Nat := 5

/-- `Pattern` from `src/pattern.rs`: a guess together with its hints. -/
structure Pattern where
  guess : Word
  hints : List Hint
deriving DecidableEq, Repr

/-- One step of `Pattern::count_chars`'s loop body:
`chars.entry(char).or_insert(0); *count += 1`. -/
def bump (m : Char → Option Nat) (c : Char) : Char → Option Nat :=
  fun d => if d = c then some ((m c).getD 0 + 1) else m d

/-- `Pattern::count_chars` from `src/pattern.rs`: build the multiset of the
word's characters.  A character that never occurs has no entry (`none`). -/
def Pattern.countChars (word : Word) : Char → Option Nat :=
  word.foldl bump (fun _ => none)

/-- Pass 1 of `Pattern::from_solution_and_guess` (src/pattern.rs:34-39),
iterating over `guess.chars().zip(solution.chars())`: positions where the
guess matches the solution get `Some(Green)` and the matching character's
remaining count is decremented through `get_mut(..).unwrap()`.  A missing
key (the `unwrap` panic) yields `none`. -/
def pass1 : List (Char × Char) → (Char → Option Nat) →
    Option (List (Option Hint) × (Char → Option Nat))
  | [], m => some ([], m)
  | (g, s) :: rest, m =>
    if g = s then
      match m g with
      | none => none
      | some n =>
        (pass1 rest (fun d => if d = g then some (n - 1) else m d)).map
          (fun r => (some Hint.Green :: r.1, r.2))
    else
      (pass1 rest m).map (fun r => (none :: r.1, r.2))

/-- Pass 2 of `Pattern::from_solution_and_guess` (src/pattern.rs:41-55):
positions already assigned are kept; a pending position becomes `Black`
when the remaining count is `Some(0) | None`, otherwise `Yellow` with a
decrement. -/
def pass2 : List (Char × Option Hint) → (Char → Option Nat) → List Hint
  | [], _ => []
  | (g, h) :: rest, m =>
    match h with
    | some hint => hint :: pass2 rest m
    | none =>
      match m g with
      | none => Hint.Black :: pass2 rest m
      | some 0 => Hint.Black :: pass2 rest m
      | some (n + 1) => Hint.Yellow :: pass2 rest (fun d => if d = g then some n else m d)

/-- `Pattern::from_solution_and_guess` from `src/pattern.rs`.  The final
check models the `try_into().unwrap()` that converts the collected hints
into a `[Hint; Word::SIZE]` array. -/
def Pattern.fromSolutionAndGuess (solution guess : Word) : Option Pattern :=
  match pass1 (guess.zip solution) (Pattern.countChars solution) with
  | none => none
  | some (pre, m) =>
    let hs := pass2 (guess.zip pre) m
    if hs.length = Word.SIZE then some ⟨guess, hs⟩ else none

/-- `Pattern::from_guess_and_hints` from `src/pattern.rs`. -/
def Pattern.fromGuessAndHints (guess : Word) (hints : List Hint) : Pattern :=
  ⟨guess, hints⟩

/-! ### Reference algorithm, transcribed from the specification (§4.1)

These `spec…` definitions follow the spec's words for the two-pass
feedback derivation; they are the comparison point for the refinement
claims and are proved equal to `Pattern.fromSolutionAndGuess`. -/

/-- The remaining multiset after the spec's pass 1: the solution's
character counts, minus one for every exact-position match. -/
def specCounts (solution guess : Word) (c : Char) : Nat :=
  solution.count c -
    ((guess.zip solution).filter (fun p => p.1 == p.2 && p.1 == c)).length

/-- The spec's pass-1 assignment: `Correct` exactly where guess and
solution agree, every other position still pending. -/
def greenMarks (guess solution : Word) : List (Option Hint) :=
  (guess.zip solution).map (fun p => if p.1 = p.2 then some Hint.Green else none)

/-- The spec's pass 2 over the pending positions, in increasing position
order: `Present` and a decrement while the remaining count is positive,
otherwise `Absent`. -/
def specPass2 : List (Char × Option Hint) → (Char → Nat) → List Hint
  | [], _ => []
  | (g, h) :: rest, m =>
    match h with
    | some hint => hint :: specPass2 rest m
    | none =>
      match m g with
      | 0 => Hint.Black :: specPass2 rest m
      | n + 1 => Hint.Yellow :: specPass2 rest (fun d => if d = g then n else m d)

/-- The spec's reference two-pass feedback derivation (§4.1). -/
def specHints (solution guess : Word) : List Hint :=
  specPass2 (guess.zip (greenMarks guess solution)) (specCounts solution guess)

/-! ### Constraints (`src/constraint.rs`) -/

/-- `Constraint` from `src/constraint.rs`: a bound on the count of one
character within a position set. -/
inductive Constraint where
  | atLeast (positions : List Nat) (count : Nat) (char : Char)
  | atMost (positions : List Nat) (count : Nat) (char : Char)
deriving DecidableEq, Repr

/-- `Constraint::lock`: the candidate must have `char` at `position`. -/
def Constraint.lock (position : Nat) (char : Char) : Constraint :=
  .atLeast [position] 1 char

/-- `Constraint::forbid`: the candidate must not have `char` at `position`. -/
def Constraint.forbid (position : Nat) (char : Char) : Constraint :=
  .atMost [position] 0 char

/-- `Constraint::not_at`: all word positions except the given ones. -/
def Constraint.notAt (positions : List Nat) : List Nat :=
  (List.range Word.SIZE).filter (fun i => !positions.contains i)

/-- `positions` projection of a `Constraint`. -/
def Constraint.positions : Constraint → List Nat
  | .atLeast positions _ _ => positions
  | .atMost positions _ _ => positions

/-- `char` projection of a `Constraint`. -/
def Constraint.char : Constraint → Char
  | .atLeast _ _ char => char
  | .atMost _ _ char => char

/-- The enumerate–filter–count in `Constraint::matches`, as an indexed
recursion: the number of positions `i` (counting from the given start
index) that lie in `positions` and hold `char`. -/
def countFrom (positions : List Nat) (char : Char) : Nat → List Char → Nat
  | _, [] => 0
  | i, c :: rest =>
    (if positions.contains i && c == char then 1 else 0) + countFrom positions char (i + 1) rest

/-- `Constraint::matches` from `src/constraint.rs`. -/
def Constraint.matches (con : Constraint) (word : Word) : Bool :=
  match con with
  | .atLeast positions count char => decide (count ≤ countFrom positions char 0 word)
  | .atMost positions count char => decide (countFrom positions char 0 word ≤ count)

/-- The `hints_by_char` entry for character `c` (src/constraint.rs:30-35):
the `(position, hint)` pairs of `c`'s occurrences in the guess, collected
in increasing position order starting from index `i`. -/
def charHints (c : Char) : Nat → List (Char × Hint) → List (Nat × Hint)
  | _, [] => []
  | i, (g, h) :: rest =>
    if g = c then (i, h) :: charHints c (i + 1) rest else charHints c (i + 1) rest

/-- `yellow_count` for one character's hints (src/constraint.rs:45-48). -/
def yellowCount (hs : List (Nat × Hint)) : Nat :=
  (hs.filter (fun p => decide (p.2 = Hint.Yellow))).length

/-- `black_count` for one character's hints (src/constraint.rs:49-52). -/
def blackCount (hs : List (Nat × Hint)) : Nat :=
  (hs.filter (fun p => decide (p.2 = Hint.Black))).length

/-- `green_positions` for one character's hints (src/constraint.rs:55-59). -/
def greenPositions (hs : List (Nat × Hint)) : List Nat :=
  (hs.filter (fun p => decide (p.2 = Hint.Green))).map Prod.fst

/-- The constraints `Constraints::from_pattern` emits for one character of
the guess (the loop body at src/constraint.rs:37-79): one positional
constraint per occurrence, then the per-character counting constraints. -/
def constraintsForChar (c : Char) (hs : List (Nat × Hint)) : List Constraint :=
  (hs.map fun p =>
    match p.2 with
    | Hint.Green => Constraint.lock p.1 c
    | Hint.Yellow => Constraint.forbid p.1 c
    | Hint.Black => Constraint.forbid p.1 c)
  ++
  (if yellowCount hs > 0 || blackCount hs > 0 then
    (if yellowCount hs > 0 then
      [Constraint.atLeast (Constraint.notAt (greenPositions hs)) (yellowCount hs) c]
    else [])
    ++
    (if blackCount hs > 0 then
      [Constraint.atMost (Constraint.notAt (greenPositions hs)) (yellowCount hs) c]
    else [])
  else [])

/-- `Constraints::from_pattern` from `src/constraint.rs`.  The source
iterates over the `hints_by_char` `HashMap` in unspecified order; the model
fixes one order by processing each distinct guess character once. -/
def Constraints.fromPattern (p : Pattern) : List Constraint :=
  p.guess.dedup.flatMap fun c => constraintsForChar c (charHints c 0 (p.guess.zip p.hints))

/-- `Constraints::matches` from `src/constraint.rs`. -/
def Constraints.matches (cs : List Constraint) (word : Word) : Bool :=
  cs.all fun con => con.matches word

/-! ### Library entry points (`src/lib.rs`) -/

/-- The `guesses.iter().map(..).collect()` of `wools::filter`, deriving one
`Pattern` per guess; a panic inside the derivation propagates as `none`. -/
def collectPatterns (solution : Word) : List Word → Option (List Pattern)
  | [] => some []
  | g :: rest => do
    let p ← Pattern.fromSolutionAndGuess solution g
    let ps ← collectPatterns solution rest
    pure (p :: ps)

/-- `wools::filter` from `src/lib.rs`. -/
def filter (words : List Word) (solution : Word) (guesses : List Word) :
    Option (List Word) := do
  let pats ← collectPatterns solution guesses
  let constraints := pats.map Constraints.fromPattern
  pure (words.filter fun word => constraints.all fun cs => Constraints.matches cs word)

/-- An iterator `filter` whose predicate may panic (`none`). -/
def filterOpt {α : Type} (p : α → Option Bool) : List α → Option (List α)
  | [] => some []
  | x :: xs => do
    let b ← p x
    let rest ← filterOpt p xs
    pure (if b then x :: rest else rest)

/-- `wools::matches` from `src/lib.rs`: keep the words whose derived hints
equal the target hints.  (`matches` is a reserved word in Lean, hence the
longer name.) -/
def matchesWords (words : List Word) (solution : Word) (hints : List Hint) :
    Option (List Word) :=
  filterOpt
    (fun word =>
      (Pattern.fromSolutionAndGuess solution word).map fun p => decide (p.hints = hints))
    words

/-- `wools::solve` from `src/lib.rs`. -/
def solve (words : List Word) (guessesAndHints : List (Word × List Hint)) :
    List Word :=
  let constraints := guessesAndHints.map fun gh =>
    Constraints.fromPattern (Pattern.fromGuessAndHints gh.1 gh.2)
  words.filter fun word => constraints.all fun cs => Constraints.matches cs word

/-- The pairing of `wools::filter`'s derivation used by claim C9: each
guess associated with the hints `Pattern::from_solution_and_guess` derives
for it. -/
def collectGuessHints (solution : Word) : List Word → Option (List (Word × List Hint))
  | [] => some []
  | g :: rest => do
    let p ← Pattern.fromSolutionAndGuess solution g
    let ps ← collectGuessHints solution rest
    pure ((g, p.hints) :: ps)

/-! ### CLI parsing boundary (`src/main.rs`) -/

/-- The symbol-to-hint mapping in `parse_hints` (src/main.rs:86-91).  The
final branch covers `'b'`; the source's `unreachable!` arm is never applied
because `parse_hints` validates the characters first. -/
def hintOfChar (c : Char) : Hint :=
  if c = 'g' then Hint.Green
  else if c = 'y' then Hint.Yellow
  else Hint.Black

/-- `parse_hints` from `src/main.rs`. -/
def parseHints (s : List Char) : Except String (List Hint) :=
  let t := s.map Char.toLower
  if t.length ≠ Word.SIZE then
    Except.error "pattern is not five-character long"
  else if ¬ (t.all fun c => c == 'g' || c == 'y' || c == 'b') then
    Except.error "pattern contains unsupported characters"
  else
    Except.ok (t.map hintOfChar)

/-- The transliteration table of `Word::from_str` (src/word.rs:81-88). -/
def transliterate (c : Char) : Char :=
  if c = 'é' ∨ c = 'ê' ∨ c = 'ë' then 'e'
  else if c = 'ó' ∨ c = 'ô' ∨ c = 'ö' then 'o'
  else if c = 'à' then 'a'
  else if c = 'ü' then 'u'
  else if c = 'ñ' then 'n'
  else c

/-- `Word::from_str` from `src/word.rs` (length check, lowercasing and
transliteration, alphabetic check). -/
def Word.fromStr (s : List Char) : Except String Word :=
  if s.length ≠ Word.SIZE then
    Except.error "word is not 5-character long"
  else
    let w := (s.map Char.toLower).map transliterate
    if w.all (fun c => 'a' ≤ c && c ≤ 'z') then Except.ok w
    else Except.error "word contains non-alphabetical characters"

/-- `parse_guess_and_hints` from `src/main.rs`: split on `','`, demand
exactly two parts, parse the word and the hints. -/
def parseGuessAndHints (s : List Char) : Except String (Word × List Hint) :=
  match s.splitOn ',' with
  | [a, b] => do
    let w ← Word.fromStr a
    let hs ← parseHints b
    Except.ok (w, hs)
  | _ => Except.error "input cannot be split in two"

/-- `Except.isOk`, locally: whether a parse succeeded. -/
def isOk {ε α : Type} : Except ε α → Bool
  | .ok _ => true
  | .error _ => false

/-- A list indexed from `i`: the model of `Iterator::enumerate` used in
the counting proofs. -/
def idxZip {α : Type} : Nat → List α → List (Nat × α)
  | _, [] => []
  | i, a :: rest => (i, a) :: idxZip (i + 1) rest

/-! ## Lemmas about the multiset of `Pattern::count_chars` -/

theorem bump_foldl (w : List Char) : ∀ (m : Char → Option Nat) (c : Char),
    (w.foldl bump m) c =
      if w.count c = 0 then m c else some ((m c).getD 0 + w.count c) := by
  induction w with
  | nil => intro m c; simp
  | cons a w ih =>
    intro m c
    rw [List.foldl_cons, ih]
    rcases eq_or_ne c a with h | h
    · subst h
      have hb : bump m c c = some ((m c).getD 0 + 1) := by simp [bump]
      rw [hb, List.count_cons_self]
      rcases Nat.eq_zero_or_pos (w.count c) with h0 | h0
      · simp [h0]
      · rw [if_neg (by omega), if_neg (by omega)]
        simp only [Option.getD_some]
        congr 1
        omega
    · have hb : bump m a c = m c := by simp [bump, h]
      rw [hb, List.count_cons_of_ne h]

/-- The content of the `count_chars` map: a key exists exactly for the
characters of the word, holding the occurrence count. -/
theorem countChars_spec (w : Word) (c : Char) :
    Pattern.countChars w c = if w.count c = 0 then none else some (w.count c) := by
  rw [Pattern.countChars, bump_foldl]
  split <;> simp

theorem countChars_getD (w : Word) (c : Char) :
    (Pattern.countChars w c).getD 0 = w.count c := by
  rw [countChars_spec]
  split <;> simp_all

theorem countChars_isSome_of_mem (w : Word) (c : Char) (h : c ∈ w) :
    (Pattern.countChars w c).isSome = true := by
  rw [countChars_spec]
  have : w.count c ≠ 0 := by
    have := List.count_pos_iff.mpr h
    omega
  simp [this]

/-! ## Pass 1 refines the spec's pass 1 -/

theorem pass1_spec : ∀ (pairs : List (Char × Char)) (m : Char → Option Nat),
    (∀ p ∈ pairs, p.1 = p.2 → (m p.1).isSome = true) →
    ∃ m', pass1 pairs m =
        some (pairs.map (fun p => if p.1 = p.2 then some Hint.Green else none), m') ∧
      ∀ c, (m' c).getD 0 =
          (m c).getD 0 - (pairs.filter (fun p => p.1 == p.2 && p.1 == c)).length := by
  intro pairs
  induction pairs with
  | nil => exact fun m _ => ⟨m, rfl, fun c => by simp⟩
  | cons p rest ih =>
    intro m h
    obtain ⟨g, s⟩ := p
    by_cases hgs : g = s
    · have hk : (m g).isSome = true := h (g, s) (by simp) hgs
      obtain ⟨n, hn⟩ := Option.isSome_iff_exists.mp hk
      have hrest : ∀ q ∈ rest, q.1 = q.2 →
          ((fun d => if d = g then some (n - 1) else m d) q.1).isSome = true := by
        intro q hq hqe
        by_cases hqg : q.1 = g
        · simp [hqg]
        · simpa [hqg] using h q (by simp [hq]) hqe
      obtain ⟨m', hm', hinv⟩ := ih (fun d => if d = g then some (n - 1) else m d) hrest
      refine ⟨m', ?_, ?_⟩
      · simp only [pass1, if_pos hgs, hn, hm', Option.map_some', List.map_cons, if_pos hgs]
      · intro c
        rw [hinv c]
        by_cases hcg : c = g
        · subst hcg
          have hflt : (List.filter (fun p => p.1 == p.2 && p.1 == c) ((c, s) :: rest)).length
              = (List.filter (fun p => p.1 == p.2 && p.1 == c) rest).length + 1 := by
            simp [List.filter_cons, hgs]
          rw [hflt, if_pos rfl, hn]
          simp only [Option.getD_some]
          omega
        · have hgc : g ≠ c := fun hh => hcg hh.symm
          have hflt : (List.filter (fun p => p.1 == p.2 && p.1 == c) ((g, s) :: rest)).length
              = (List.filter (fun p => p.1 == p.2 && p.1 == c) rest).length := by
            simp [List.filter_cons, hgc]
          rw [hflt, if_neg hcg]
    · obtain ⟨m', hm', hinv⟩ := ih m (fun q hq hqe => h q (by simp [hq]) hqe)
      refine ⟨m', ?_, ?_⟩
      · simp only [pass1, if_neg hgs, hm', Option.map_some', List.map_cons, if_neg hgs]
      · intro c
        rw [hinv c]
        have hflt : (List.filter (fun p => p.1 == p.2 && p.1 == c) ((g, s) :: rest)).length
            = (List.filter (fun p => p.1 == p.2 && p.1 == c) rest).length := by
          simp [List.filter_cons, hgs]
        rw [hflt]

/-! ## Pass 2 refines the spec's pass 2 -/

theorem pass2_eq_spec : ∀ (l : List (Char × Option Hint)) (m : Char → Option Nat)
    (ms : Char → Nat), (∀ c, (m c).getD 0 = ms c) → pass2 l m = specPass2 l ms := by
  intro l
  induction l with
  | nil => intro m ms _; rfl
  | cons p rest ih =>
    intro m ms h
    obtain ⟨g, oh⟩ := p
    cases oh with
    | some hint => simp only [pass2, specPass2, ih m ms h]
    | none =>
      have hg := h g
      cases hm : m g with
      | none =>
        have h0 : ms g = 0 := by rw [← hg, hm]; rfl
        simp only [pass2, specPass2, hm, h0, ih m ms h]
      | some n =>
        cases n with
        | zero =>
          have h0 : ms g = 0 := by rw [← hg, hm]; rfl
          simp only [pass2, specPass2, hm, h0, ih m ms h]
        | succ k =>
          have hk : ms g = k + 1 := by rw [← hg, hm]; rfl
          simp only [pass2, specPass2, hm, hk]
          congr 1
          apply ih
          intro c
          by_cases hc : c = g <;> simp [hc, h c]

theorem specPass2_length : ∀ (l : List (Char × Option Hint)) (m : Char → Nat),
    (specPass2 l m).length = l.length := by
  intro l
  induction l with
  | nil => intro m; rfl
  | cons p rest ih =>
    intro m
    obtain ⟨g, oh⟩ := p
    cases oh with
    | some hint => simp [specPass2, ih]
    | none =>
      cases hm : m g with
      | zero => simp [specPass2, hm, ih]
      | succ k => simp [specPass2, hm, ih]

/-- The reference derivation always yields one hint per guess position. -/
theorem specHints_length (solution guess : Word)
    (hsol : solution.length = 5) (hg : guess.length = 5) :
    (specHints solution guess).length = 5 := by
  rw [specHints, specPass2_length, List.length_zip, greenMarks, List.length_map,
    List.length_zip, hsol, hg]
  simp

/-- Bridge: on length-5 words the code's derivation succeeds and produces
exactly the spec's reference hints. -/
theorem fromSolutionAndGuess_spec (solution guess : Word)
    (hsol : solution.length = 5) (hg : guess.length = 5) :
    Pattern.fromSolutionAndGuess solution guess =
      some ⟨guess, specHints solution guess⟩ := by
  have hkey : ∀ p ∈ guess.zip solution, p.1 = p.2 →
      ((Pattern.countChars solution) p.1).isSome = true := by
    intro p hp he
    exact countChars_isSome_of_mem solution p.1 (he ▸ (List.of_mem_zip hp).2)
  obtain ⟨m', hm', hinv⟩ := pass1_spec (guess.zip solution) _ hkey
  have hmarks : (guess.zip solution).map
      (fun p => if p.1 = p.2 then some Hint.Green else none) = greenMarks guess solution := rfl
  have hcounts : ∀ c, (m' c).getD 0 = specCounts solution guess c := by
    intro c
    rw [hinv c, countChars_getD, specCounts]
  have hp2 : pass2 (guess.zip (greenMarks guess solution)) m' =
      specPass2 (guess.zip (greenMarks guess solution)) (specCounts solution guess) :=
    pass2_eq_spec _ _ _ hcounts
  have hlen : (specHints solution guess).length = 5 := specHints_length solution guess hsol hg
  rw [Pattern.fromSolutionAndGuess, hm', hmarks]
  simp only [hp2]
  rw [← specHints]
  simp [hlen, Word.SIZE]

/-! ## Positional behaviour of the spec's pass 2 -/

/-- An already-assigned position keeps its hint through pass 2. -/
theorem specPass2_assigned : ∀ (l : List (Char × Option Hint)) (m : Char → Nat)
    (k : Nat) (g : Char) (h : Hint),
    l[k]? = some (g, some h) → (specPass2 l m)[k]? = some h := by
  intro l
  induction l with
  | nil => intro m k g h hk; simp at hk
  | cons p rest ih =>
    intro m k g h hk
    obtain ⟨g0, oh0⟩ := p
    cases k with
    | zero =>
      simp only [List.getElem?_cons_zero, Option.some.injEq, Prod.mk.injEq] at hk
      rw [hk.2]
      simp [specPass2]
    | succ k =>
      simp only [List.getElem?_cons_succ] at hk
      cases oh0 with
      | some h0 => simpa [specPass2] using ih m k g h hk
      | none =>
        cases hm : m g0 with
        | zero => simpa [specPass2, hm] using ih m k g h hk
        | succ n => simpa [specPass2, hm] using ih _ k g h hk

/-- A pending position comes out of pass 2 as `Yellow` or `Black`. -/
theorem specPass2_pending : ∀ (l : List (Char × Option Hint)) (m : Char → Nat)
    (k : Nat) (g : Char),
    l[k]? = some (g, none) →
    (specPass2 l m)[k]? = some Hint.Yellow ∨ (specPass2 l m)[k]? = some Hint.Black := by
  intro l
  induction l with
  | nil => intro m k g hk; simp at hk
  | cons p rest ih =>
    intro m k g hk
    obtain ⟨g0, oh0⟩ := p
    cases k with
    | zero =>
      simp only [List.getElem?_cons_zero, Option.some.injEq, Prod.mk.injEq] at hk
      obtain ⟨rfl, rfl⟩ := hk
      cases hm : m g0 with
      | zero => right; simp [specPass2, hm]
      | succ n => left; simp [specPass2, hm]
    | succ k =>
      simp only [List.getElem?_cons_succ] at hk
      cases oh0 with
      | some h0 => simpa [specPass2] using ih m k g hk
      | none =>
        cases hm : m g0 with
        | zero => simpa [specPass2, hm] using ih m k g hk
        | succ n =>
          simpa [specPass2, hm] using ih (fun d => if d = g0 then n else m d) k g hk

/-- Once a character's remaining count is zero, every pending occurrence of
it comes out `Black` (the count can only decrease). -/
theorem specPass2_black_of_zero : ∀ (l : List (Char × Option Hint)) (m : Char → Nat)
    (c : Char) (k : Nat), m c = 0 → l[k]? = some (c, none) →
    (specPass2 l m)[k]? = some Hint.Black := by
  intro l
  induction l with
  | nil => intro m c k _ hk; simp at hk
  | cons p rest ih =>
    intro m c k hc hk
    obtain ⟨g0, oh0⟩ := p
    cases k with
    | zero =>
      simp only [List.getElem?_cons_zero, Option.some.injEq, Prod.mk.injEq] at hk
      obtain ⟨rfl, rfl⟩ := hk
      simp [specPass2, hc]
    | succ k =>
      simp only [List.getElem?_cons_succ] at hk
      cases oh0 with
      | some h0 => simpa [specPass2] using ih m c k hc hk
      | none =>
        cases hm : m g0 with
        | zero => simpa [specPass2, hm] using ih m c k hc hk
        | succ n =>
          have hgc : g0 ≠ c := by
            intro he
            rw [he, hc] at hm
            cases hm
          have hc' : (fun d => if d = g0 then n else m d) c = 0 := by
            simp [Ne.symm hgc, hc]
          simpa [specPass2, hm] using ih (fun d => if d = g0 then n else m d) c k hc' hk

/-- The tie-break of pass 2: with exactly one remaining occurrence of `c`
and exactly two pending `c` positions `i < j`, the earlier one gets
`Yellow` and the later one gets `Black`. -/
theorem specPass2_tiebreak : ∀ (l : List (Char × Option Hint)) (m : Char → Nat)
    (c : Char) (i j : Nat), m c = 1 → i < j →
    l[i]? = some (c, none) → l[j]? = some (c, none) →
    (∀ k p, l[k]? = some p → p.1 = c → k = i ∨ k = j) →
    (specPass2 l m)[i]? = some Hint.Yellow ∧ (specPass2 l m)[j]? = some Hint.Black := by
  intro l
  induction l with
  | nil => intro m c i j _ _ hi _ _; simp at hi
  | cons p rest ih =>
    intro m c i j hm1 hij hi hj honly
    obtain ⟨g0, oh0⟩ := p
    cases i with
    | zero =>
      simp only [List.getElem?_cons_zero, Option.some.injEq, Prod.mk.injEq] at hi
      obtain ⟨rfl, rfl⟩ := hi
      obtain ⟨j', rfl⟩ : ∃ j', j = j' + 1 := ⟨j - 1, by omega⟩
      simp only [List.getElem?_cons_succ] at hj
      have hstep : specPass2 ((g0, none) :: rest) m =
          Hint.Yellow :: specPass2 rest (fun d => if d = g0 then 0 else m d) := by
        simp [specPass2, hm1]
      rw [hstep]
      refine ⟨by simp, ?_⟩
      simp only [List.getElem?_cons_succ]
      exact specPass2_black_of_zero rest (fun d => if d = g0 then 0 else m d) g0 j'
        (by simp) hj
    | succ i' =>
      obtain ⟨j', rfl⟩ : ∃ j', j = j' + 1 := ⟨j - 1, by omega⟩
      simp only [List.getElem?_cons_succ] at hi hj
      have hhead : g0 ≠ c := by
        intro he
        rcases honly 0 (g0, oh0) (by simp) he with h0 | h0 <;> cases h0
      have honly' : ∀ k p, rest[k]? = some p → p.1 = c → k = i' ∨ k = j' := by
        intro k p hk hp
        rcases honly (k + 1) p (by simpa using hk) hp with h0 | h0
        · exact Or.inl (by omega)
        · exact Or.inr (by omega)
      cases oh0 with
      | some h0 =>
        have := ih m c i' j' hm1 (by omega) hi hj honly'
        simpa [specPass2] using this
      | none =>
        cases hm : m g0 with
        | zero =>
          have := ih m c i' j' hm1 (by omega) hi hj honly'
          simpa [specPass2, hm] using this
        | succ n =>
          have hc' : (fun d => if d = g0 then n else m d) c = 1 := by
            simp [Ne.symm hhead, hm1]
          have := ih (fun d => if d = g0 then n else m d) c i' j' hc' (by omega) hi hj honly'
          simpa [specPass2, hm] using this

/-- Index access in a zip of two lists. -/
theorem getElem?_zip {α β : Type} : ∀ (a : List α) (b : List β) (k : Nat),
    (a.zip b)[k]? = (a[k]?).bind fun x => (b[k]?).map fun y => (x, y) := by
  intro a
  induction a with
  | nil => intro b k; simp
  | cons x a ih =>
    intro b k
    cases b with
    | nil => simp
    | cons y b =>
      cases k with
      | zero => simp
      | succ k => simpa [List.zip_cons_cons] using ih b k

/-! ## Claim theorems: feedback derivation -/

/-- C2: on length-5 words, `Pattern::from_solution_and_guess` produces
exactly the hint sequence of the spec's reference two-pass algorithm
(multiset of solution characters; pass 1 marks exact matches `Correct` and
decrements; pass 2 walks pending positions left to right, assigning
`Present` with a decrement while the count is positive and `Absent`
otherwise). -/
theorem C2_two_pass_reference (solution guess : Word)
    (hsol : solution.length = 5) (hg : guess.length = 5) :
    Pattern.fromSolutionAndGuess solution guess =
      some (Pattern.fromGuessAndHints guess (specHints solution guess)) :=
  fromSolutionAndGuess_spec solution guess hsol hg

/-- Witness for C2 at solution "stunt", guess "attic". -/
theorem C2_two_pass_reference_witness :
    Pattern.fromSolutionAndGuess ['s','t','u','n','t'] ['a','t','t','i','c'] =
      some (Pattern.fromGuessAndHints ['a','t','t','i','c']
        (specHints ['s','t','u','n','t'] ['a','t','t','i','c'])) :=
  C2_two_pass_reference ['s','t','u','n','t'] ['a','t','t','i','c'] rfl rfl

/-- C10: on length-5 words, `Pattern::from_solution_and_guess` never
panics: the pass-1 `unwrap` always finds its key and the final conversion
receives exactly five assigned hints. -/
theorem C10_no_panic (solution guess : Word)
    (hsol : solution.length = 5) (hg : guess.length = 5) :
    ∃ p, Pattern.fromSolutionAndGuess solution guess = some p ∧
      p.guess = guess ∧ p.hints.length = 5 :=
  ⟨⟨guess, specHints solution guess⟩,
    fromSolutionAndGuess_spec solution guess hsol hg, rfl,
    specHints_length solution guess hsol hg⟩

/-- Witness for C10 at solution "watch", guess "prime". -/
theorem C10_no_panic_witness :
    ∃ p, Pattern.fromSolutionAndGuess ['w','a','t','c','h'] ['p','r','i','m','e'] = some p ∧
      p.guess = ['p','r','i','m','e'] ∧ p.hints.length = 5 :=
  C10_no_panic ['w','a','t','c','h'] ['p','r','i','m','e'] rfl rfl

/-- C4: when the solution contains `c` exactly once and the guess contains
`c` at exactly the two positions `i < j`, neither matching the solution,
the earlier occurrence is `Present` (Yellow) and the later one `Absent`
(Black). -/
theorem C4_duplicate_tiebreak (solution guess : Word) (c : Char) (i j : Nat)
    (hsol : solution.length = 5) (hg : guess.length = 5)
    (hcount : solution.count c = 1) (hij : i < j)
    (hgi : guess[i]? = some c) (hgj : guess[j]? = some c)
    (honly : ∀ k, k < 5 → guess[k]? = some c → k = i ∨ k = j)
    (hsi : solution[i]? ≠ some c) (hsj : solution[j]? ≠ some c) :
    ∃ p, Pattern.fromSolutionAndGuess solution guess = some p ∧
      p.hints[i]? = some Hint.Yellow ∧ p.hints[j]? = some Hint.Black := by
  refine ⟨⟨guess, specHints solution guess⟩,
    fromSolutionAndGuess_spec solution guess hsol hg, ?_⟩
  have hzlen : (guess.zip (greenMarks guess solution)).length = 5 := by
    rw [List.length_zip, greenMarks, List.length_map, List.length_zip, hsol, hg]
    simp
  -- the multiset entry for c after pass 1 is exactly 1
  have hmatched :
      (List.filter (fun p => p.1 == p.2 && p.1 == c) (guess.zip solution)) = [] := by
    rw [List.filter_eq_nil_iff]
    intro p hp
    obtain ⟨k, hk⟩ := List.mem_iff_getElem?.mp hp
    rw [getElem?_zip] at hk
    intro hpred
    simp only [Bool.and_eq_true, beq_iff_eq] at hpred
    obtain ⟨hp12, hp1c⟩ := hpred
    have hk5 : k < 5 := by
      have : k < (guess.zip solution).length := (List.getElem?_eq_some.mp (by
        rw [getElem?_zip]; exact hk)).1
      rw [List.length_zip, hsol, hg] at this
      omega
    cases hgk : guess[k]? with
    | none => rw [hgk] at hk; simp at hk
    | some x =>
      cases hsk : solution[k]? with
      | none => rw [hgk, hsk] at hk; simp at hk
      | some y =>
        rw [hgk, hsk] at hk
        replace hk : some (x, y) = some p := hk
        obtain rfl := Option.some.inj hk
        simp only at hp12 hp1c
        have hguessk : guess[k]? = some c := by rw [hgk, hp1c]
        rcases honly k hk5 hguessk with rfl | rfl
        · exact hsi (by rw [hsk, ← hp12, hp1c])
        · exact hsj (by rw [hsk, ← hp12, hp1c])
  have hmc : specCounts solution guess c = 1 := by
    rw [specCounts, hmatched, hcount]
    simp
  have hj5 : j < 5 := by
    have := (List.getElem?_eq_some.mp hgj).1
    omega
  have hi5 : i < 5 := by omega
  -- the pending entries for c in the zipped list are exactly i and j
  have hmark : ∀ k, k < 5 → guess[k]? = some c → solution[k]? ≠ some c →
      (greenMarks guess solution)[k]? = some none := by
    intro k hk5 hgk hsk
    rw [greenMarks, List.getElem?_map, getElem?_zip, hgk]
    cases hskv : solution[k]? with
    | none =>
      have : solution.length ≤ k := List.getElem?_eq_none_iff.mp hskv
      omega
    | some y =>
      have hyne : ¬ (c = y) := fun he => hsk (by rw [hskv, ← he])
      simp [hyne]
  have hli : (guess.zip (greenMarks guess solution))[i]? = some (c, none) := by
    rw [getElem?_zip, hgi, hmark i hi5 hgi hsi]
    rfl
  have hlj : (guess.zip (greenMarks guess solution))[j]? = some (c, none) := by
    rw [getElem?_zip, hgj, hmark j hj5 hgj hsj]
    rfl
  have hside : ∀ k p, (guess.zip (greenMarks guess solution))[k]? = some p →
      p.1 = c → k = i ∨ k = j := by
    intro k p hk hp
    have hk5 : k < 5 := by
      have := (List.getElem?_eq_some.mp hk).1
      omega
    rw [getElem?_zip] at hk
    cases hgk : guess[k]? with
    | none => rw [hgk] at hk; simp at hk
    | some x =>
      rw [hgk] at hk
      cases hmk : (greenMarks guess solution)[k]? with
      | none => rw [hmk] at hk; simp at hk
      | some oh =>
        rw [hmk] at hk
        replace hk : some (x, oh) = some p := hk
        obtain rfl := Option.some.inj hk
        exact honly k hk5 (by rw [hgk]; exact congrArg some hp)
  have := specPass2_tiebreak (guess.zip (greenMarks guess solution))
    (specCounts solution guess) c i j hmc hij hli hlj hside
  exact ⟨this.1, this.2⟩

/-- Witness for C4: solution "prism", guess "apple", duplicate 'p' at
positions 1 and 2. -/
theorem C4_duplicate_tiebreak_witness :
    ∃ p, Pattern.fromSolutionAndGuess ['p','r','i','s','m'] ['a','p','p','l','e'] = some p ∧
      p.hints[1]? = some Hint.Yellow ∧ p.hints[2]? = some Hint.Black :=
  C4_duplicate_tiebreak ['p','r','i','s','m'] ['a','p','p','l','e'] 'p' 1 2
    rfl rfl (by decide) (by decide) (by decide) (by decide) (by decide) (by decide) (by decide)

/-! ## Indexed counting toolbox -/

theorem idxZip_length {α : Type} : ∀ (i : Nat) (l : List α),
    (idxZip i l).length = l.length := by
  intro i l
  induction l generalizing i with
  | nil => rfl
  | cons a rest ih => simp [idxZip, ih]

theorem idxZip_getElem? {α : Type} : ∀ (l : List α) (i k : Nat),
    (idxZip i l)[k]? = (l[k]?).map (fun a => (i + k, a)) := by
  intro l
  induction l with
  | nil => intro i k; simp [idxZip]
  | cons a rest ih =>
    intro i k
    cases k with
    | zero => simp [idxZip]
    | succ k =>
      have harith : i + (k + 1) = (i + 1) + k := by omega
      simp only [idxZip, List.getElem?_cons_succ, ih (i + 1) k, harith]

theorem mem_idxZip {α : Type} : ∀ (l : List α) (i : Nat) (n : Nat) (x : α),
    (n, x) ∈ idxZip i l ↔ i ≤ n ∧ l[n - i]? = some x := by
  intro l
  induction l with
  | nil => intro i n x; simp [idxZip]
  | cons a rest ih =>
    intro i n x
    simp only [idxZip, List.mem_cons, ih (i + 1) n x, Prod.mk.injEq]
    constructor
    · rintro (⟨rfl, rfl⟩ | ⟨h1, h2⟩)
      · simp
      · refine ⟨by omega, ?_⟩
        have hd : n - i = (n - (i + 1)) + 1 := by omega
        rw [hd, List.getElem?_cons_succ]
        exact h2
    · rintro ⟨h1, h2⟩
      rcases Nat.eq_or_lt_of_le h1 with he | hlt
      · left
        have h0 : n - i = 0 := by omega
        rw [h0, List.getElem?_cons_zero] at h2
        exact ⟨he.symm, (Option.some.inj h2).symm⟩
      · right
        refine ⟨by omega, ?_⟩
        have hd : n - i = (n - (i + 1)) + 1 := by omega
        rw [hd, List.getElem?_cons_succ] at h2
        exact h2

theorem idxZip_map_fst {α : Type} : ∀ (l : List α) (i : Nat),
    (idxZip i l).map Prod.fst = List.range' i l.length := by
  intro l
  induction l with
  | nil => intro i; rfl
  | cons a rest ih => intro i; simp [idxZip, ih, List.range'_succ]

theorem idxZip_map_snd {α : Type} : ∀ (l : List α) (i : Nat),
    (idxZip i l).map Prod.snd = l := by
  intro l
  induction l with
  | nil => intro i; rfl
  | cons a rest ih => intro i; simp [idxZip, ih]

theorem countFrom_eq_countP (ps : List Nat) (c : Char) : ∀ (w : List Char) (i : Nat),
    countFrom ps c i w =
      List.countP (fun p => ps.contains p.1 && p.2 == c) (idxZip i w) := by
  intro w
  induction w with
  | nil => intro i; rfl
  | cons a rest ih =>
    intro i
    simp only [countFrom, idxZip, List.countP_cons, ih (i + 1)]
    by_cases hb : (ps.contains i && (a == c)) = true
    · simp only [hb, if_true]
      omega
    · simp only [hb, if_false]
      rw [Bool.not_eq_true] at hb
      simp [hb]

theorem countFrom_singleton (c : Char) (k : Nat) : ∀ (w : List Char) (i : Nat),
    countFrom [k] c i w = if i ≤ k ∧ w[k - i]? = some c then 1 else 0 := by
  intro w
  induction w with
  | nil =>
    intro i
    rw [countFrom]
    simp
  | cons a rest ih =>
    intro i
    rw [countFrom, ih (i + 1)]
    by_cases hik : i = k
    · subst hik
      have hc1 : ([i].contains i) = true := by simp
      have h0 : i - i = 0 := by omega
      rw [hc1, h0]
      have hno : ¬ (i + 1 ≤ i ∧ rest[i - (i + 1)]? = some c) := by
        rintro ⟨h, _⟩
        omega
      rw [if_neg hno, List.getElem?_cons_zero]
      by_cases hac : (a == c) = true
      · have : a = c := by simpa using hac
        simp [this]
      · have : ¬ (a = c) := by simpa using hac
        simp [hac, this, fun h => this (Option.some.inj h)]
    · have hc0 : ([k].contains i) = false := by
        have : i ∉ [k] := by simp [Ne.symm, hik]
        simpa using this
      rw [hc0]
      simp only [Bool.false_and]
      rw [if_neg Bool.false_ne_true, Nat.zero_add]
      rcases Nat.lt_trichotomy i k with hlt | heq | hgt
      · have hd : k - i = (k - (i + 1)) + 1 := by omega
        rw [hd, List.getElem?_cons_succ]
        by_cases hx : rest[k - (i + 1)]? = some c
        · rw [if_pos (And.intro (by omega) hx), if_pos (And.intro (by omega) hx)]
        · rw [if_neg (fun h => hx h.2), if_neg (fun h => hx h.2)]
      · exact absurd heq hik
      · have h1 : ¬ (i + 1 ≤ k ∧ rest[k - (i + 1)]? = some c) :=
          fun h => absurd h.1 (by omega)
        have h2 : ¬ (i ≤ k ∧ (a :: rest)[k - i]? = some c) :=
          fun h => absurd h.1 (by omega)
        rw [if_neg h1, if_neg h2]

/-- `charHints` is the indexed filter of the character's occurrences. -/
theorem charHints_eq (c : Char) : ∀ (pairs : List (Char × Hint)) (i : Nat),
    charHints c i pairs =
      ((idxZip i pairs).filter (fun p => p.2.1 == c)).map (fun p => (p.1, p.2.2)) := by
  intro pairs
  induction pairs with
  | nil => intro i; rfl
  | cons q rest ih =>
    intro i
    obtain ⟨g, h⟩ := q
    by_cases hgc : g = c
    · simp [charHints, idxZip, List.filter_cons, hgc, ih (i + 1)]
    · simp [charHints, idxZip, List.filter_cons, hgc, ih (i + 1)]

theorem charHints_bound (c : Char) : ∀ (pairs : List (Char × Hint)) (i : Nat)
    (p : Nat × Hint), p ∈ charHints c i pairs → i ≤ p.1 ∧ p.1 < i + pairs.length := by
  intro pairs
  induction pairs with
  | nil => intro i p hp; cases hp
  | cons q rest ih =>
    intro i p hp
    obtain ⟨g, h⟩ := q
    by_cases hgc : g = c
    · rw [charHints, if_pos hgc] at hp
      rcases List.mem_cons.mp hp with rfl | hp'
      · simp only [List.length_cons]
        omega
      · have := ih (i + 1) p hp'
        simp only [List.length_cons]
        omega
    · rw [charHints, if_neg hgc] at hp
      have := ih (i + 1) p hp
      simp only [List.length_cons]
      omega

theorem charHints_pairwise (c : Char) : ∀ (pairs : List (Char × Hint)) (i : Nat),
    (charHints c i pairs).Pairwise (fun p q => p.1 < q.1) := by
  intro pairs
  induction pairs with
  | nil => intro i; exact List.Pairwise.nil
  | cons q rest ih =>
    intro i
    obtain ⟨g, h⟩ := q
    by_cases hgc : g = c
    · rw [charHints, if_pos hgc]
      refine List.Pairwise.cons ?_ (ih (i + 1))
      intro p hp
      have := charHints_bound c rest (i + 1) p hp
      omega
    · rw [charHints, if_neg hgc]
      exact ih (i + 1)

/-- Splitting a count along an auxiliary boolean predicate. -/
theorem countP_split {α : Type} (g r : α → Bool) : ∀ l : List α,
    List.countP r l =
      List.countP (fun a => g a && r a) l + List.countP (fun a => !g a && r a) l := by
  intro l
  induction l with
  | nil => rfl
  | cons a rest ih =>
    simp only [List.countP_cons, ih]
    by_cases hg : g a = true <;> by_cases hr : r a = true <;> simp [hg, hr] <;> omega

/-- Collapsing the double zip used when pairing pass-2 input with output. -/
theorem zip_zip_map {α β γ : Type} : ∀ (a : List α) (b : List β) (d : List γ),
    a.length = b.length →
    ((a.zip b).zip d).map (fun q => (q.1.1, q.2)) = a.zip d := by
  intro a
  induction a with
  | nil => intro b d _; simp
  | cons x a ih =>
    intro b d hb
    cases b with
    | nil => simp at hb
    | cons y b =>
      cases d with
      | nil => simp
      | cons z d =>
        simp only [List.zip_cons_cons, List.map_cons]
        rw [ih b d (by simpa using hb)]

/-- Counting in two zips of the same spine, with pointwise-equivalent
predicates. -/
theorem countP_zip_congr {α β γ : Type} :
    ∀ (a : List α) (b : List β) (d : List γ) (p : α → β → Bool) (q : α → γ → Bool),
    b.length = d.length →
    (∀ (k : Nat) (x : α) (y : β) (z : γ),
      a[k]? = some x → b[k]? = some y → d[k]? = some z → p x y = q x z) →
    List.countP (fun r => p r.1 r.2) (a.zip b) =
      List.countP (fun r => q r.1 r.2) (a.zip d) := by
  intro a
  induction a with
  | nil => intro b d p q _ _; simp
  | cons x a ih =>
    intro b d p q hlen hpt
    cases b with
    | nil =>
      cases d with
      | nil => simp
      | cons z d => simp at hlen
    | cons y b =>
      cases d with
      | nil => simp at hlen
      | cons z d =>
        simp only [List.zip_cons_cons, List.countP_cons]
        have hhead : p x y = q x z := hpt 0 x y z (by simp) (by simp) (by simp)
        have htail : ∀ (k : Nat) (xx : α) (yy : β) (zz : γ),
            a[k]? = some xx → b[k]? = some yy → d[k]? = some zz → p xx yy = q xx zz := by
          intro k xx yy zz h1 h2 h3
          exact hpt (k + 1) xx yy zz (by simpa using h1) (by simpa using h2) (by simpa using h3)
        rw [ih b d p q (by simpa using hlen) htail, hhead]

/-- Counting the members of a duplicate-free index list inside an indexed
enumeration that covers them all. -/
theorem countP_contains_idxZip {α : Type} (l : List α) (G : List Nat)
    (hnd : G.Nodup) (hlt : ∀ k ∈ G, k < l.length) :
    List.countP (fun p => G.contains p.1) (idxZip 0 l) = G.length := by
  have h1 : List.countP (fun k => G.contains k) ((idxZip 0 l).map Prod.fst)
      = List.countP (fun p => G.contains p.1) (idxZip 0 l) :=
    List.countP_map _ _ _
  rw [← h1, idxZip_map_fst, List.countP_eq_length_filter]
  have hperm :
      List.Perm ((List.range' 0 l.length).filter (fun k => G.contains k)) G := by
    rw [List.perm_ext_iff_of_nodup
      (List.Nodup.filter _ (List.nodup_range' 0 l.length)) hnd]
    intro k
    constructor
    · intro hk
      exact List.elem_iff.mp ((List.mem_filter.mp hk).2)
    · intro hk
      refine List.mem_filter.mpr ⟨?_, ?_⟩
      · exact List.mem_range'_1.mpr ⟨by omega, by simpa using hlt k hk⟩
      · exact List.elem_iff.mpr hk
  exact hperm.length_eq

/-- A position's hint is `Green` exactly when guess and solution agree
there. -/
theorem green_iff (solution guess : Word) (hsol : solution.length = 5)
    (hg : guess.length = 5) (k : Nat) (x : Char) (hk : guess[k]? = some x) :
    ((specHints solution guess)[k]? = some Hint.Green ↔ solution[k]? = some x) := by
  have hk5 : k < 5 := by
    have := (List.getElem?_eq_some.mp hk).1
    omega
  obtain ⟨y, hy⟩ : ∃ y, solution[k]? = some y := by
    cases hs : solution[k]? with
    | none => exact absurd (List.getElem?_eq_none_iff.mp hs) (by omega)
    | some y => exact ⟨y, rfl⟩
  have hmk : (greenMarks guess solution)[k]? =
      some (if x = y then some Hint.Green else none) := by
    rw [greenMarks, List.getElem?_map, getElem?_zip, hk, hy]
    rfl
  have hlk : (guess.zip (greenMarks guess solution))[k]? =
      some (x, if x = y then some Hint.Green else none) := by
    rw [getElem?_zip, hk, hmk]
    rfl
  rw [specHints]
  by_cases hxy : x = y
  · rw [if_pos hxy] at hlk
    have hgrn := specPass2_assigned _ (specCounts solution guess) k x Hint.Green hlk
    rw [hgrn, hy, hxy]
    simp
  · rw [if_neg hxy] at hlk
    have hpend := specPass2_pending _ (specCounts solution guess) k x hlk
    constructor
    · intro hgr
      rcases hpend with h | h
      · exact absurd (Option.some.inj (h.symm.trans hgr)) (by decide)
      · exact absurd (Option.some.inj (h.symm.trans hgr)) (by decide)
    · intro hsx
      rw [hy] at hsx
      exact absurd (Option.some.inj hsx).symm hxy

/-- Pass-2 counting: for any character, the number of `Yellow` hints it
receives never exceeds its remaining count, and if it also receives a
`Black` hint then the `Yellow` hints consumed the count exactly. -/
theorem specPass2_counts : ∀ (l : List (Char × Option Hint)) (m : Char → Nat) (c : Char),
    (∀ p ∈ l, p.2 = none ∨ p.2 = some Hint.Green) →
    List.countP (fun q => q.1.1 == c && decide (q.2 = Hint.Yellow)) (l.zip (specPass2 l m)) ≤ m c
    ∧ (0 < List.countP (fun q => q.1.1 == c && decide (q.2 = Hint.Black))
          (l.zip (specPass2 l m)) →
        List.countP (fun q => q.1.1 == c && decide (q.2 = Hint.Yellow))
          (l.zip (specPass2 l m)) = m c) := by
  intro l
  induction l with
  | nil => intro m c _; simp [specPass2]
  | cons p0 rest ih =>
    intro m c hh
    obtain ⟨g, oh⟩ := p0
    have hrest : ∀ p ∈ rest, p.2 = none ∨ p.2 = some Hint.Green :=
      fun p hp => hh p (List.mem_cons_of_mem _ hp)
    cases oh with
    | some h0 =>
      have hgr : h0 = Hint.Green := by
        rcases hh (g, some h0) (List.mem_cons_self _ _) with h | h
        · exact absurd h (by simp)
        · exact Option.some.inj h
      subst hgr
      have hstep : specPass2 ((g, some Hint.Green) :: rest) m =
          Hint.Green :: specPass2 rest m := by simp [specPass2]
      rw [hstep]
      obtain ⟨ihY, ihB⟩ := ih m c hrest
      constructor
      · simpa [List.zip_cons_cons, List.countP_cons] using ihY
      · intro hB
        have hB' : 0 < List.countP (fun q => q.1.1 == c && decide (q.2 = Hint.Black))
            (rest.zip (specPass2 rest m)) := by
          simpa [List.zip_cons_cons, List.countP_cons] using hB
        simpa [List.zip_cons_cons, List.countP_cons] using ihB hB'
    | none =>
      cases hm : m g with
      | zero =>
        have hstep : specPass2 ((g, none) :: rest) m = Hint.Black :: specPass2 rest m := by
          simp [specPass2, hm]
        rw [hstep]
        obtain ⟨ihY, ihB⟩ := ih m c hrest
        by_cases hgc : g = c
        · subst hgc
          have hY0 : List.countP (fun q => q.1.1 == g && decide (q.2 = Hint.Yellow))
              (rest.zip (specPass2 rest m)) = 0 := by
            rw [hm] at ihY
            omega
          constructor
          · simp only [List.zip_cons_cons, List.countP_cons]
            simp [hY0, hm]
          · intro _
            simp only [List.zip_cons_cons, List.countP_cons]
            simp [hY0, hm]
        · constructor
          · simpa [List.zip_cons_cons, List.countP_cons, hgc] using ihY
          · intro hB
            have hB' : 0 < List.countP (fun q => q.1.1 == c && decide (q.2 = Hint.Black))
                (rest.zip (specPass2 rest m)) := by
              simpa [List.zip_cons_cons, List.countP_cons, hgc] using hB
            simpa [List.zip_cons_cons, List.countP_cons, hgc] using ihB hB'
      | succ n =>
        have hstep : specPass2 ((g, none) :: rest) m =
            Hint.Yellow :: specPass2 rest (fun d => if d = g then n else m d) := by
          simp [specPass2, hm]
        rw [hstep]
        obtain ⟨ihY, ihB⟩ := ih (fun d => if d = g then n else m d) c hrest
        by_cases hgc : g = c
        · subst hgc
          simp only [eq_self_iff_true, if_true] at ihY ihB
          constructor
          · simp only [List.zip_cons_cons, List.countP_cons]
            rw [hm]
            simp only [beq_self_eq_true, Bool.true_and]
            simp
            omega
          · intro hB
            have hBr : 0 < List.countP (fun q => q.1.1 == g && decide (q.2 = Hint.Black))
                (rest.zip (specPass2 rest (fun d => if d = g then n else m d))) := by
              simpa [List.zip_cons_cons, List.countP_cons] using hB
            have hYn := ihB hBr
            simp only [List.zip_cons_cons, List.countP_cons]
            rw [hm]
            simp [hYn]
        · have hcg : c ≠ g := fun h => hgc h.symm
          simp only [if_neg hcg] at ihY ihB
          constructor
          · simpa [List.zip_cons_cons, List.countP_cons, hgc] using ihY
          · intro hB
            have hB' : 0 < List.countP (fun q => q.1.1 == c && decide (q.2 = Hint.Black))
                (rest.zip (specPass2 rest (fun d => if d = g then n else m d))) := by
              simpa [List.zip_cons_cons, List.countP_cons, hgc] using hB
            simpa [List.zip_cons_cons, List.countP_cons, hgc] using ihB hB'

/-! ## Membership and conversion lemmas for the constraint derivation -/

theorem contains_eq_decide_mem (l : List Nat) (k : Nat) :
    l.contains k = decide (k ∈ l) := by
  by_cases h : k ∈ l
  · have h1 : l.contains k = true := List.elem_iff.mpr h
    rw [h1, decide_eq_true h]
  · have h1 : l.contains k = false := by
      cases hc : l.contains k
      · rfl
      · exact absurd (List.elem_iff.mp hc) h
    rw [h1, decide_eq_false h]

theorem mem_notAt (ps : List Nat) (k : Nat) :
    k ∈ Constraint.notAt ps ↔ k < 5 ∧ k ∉ ps := by
  rw [Constraint.notAt, Word.SIZE]
  simp only [List.mem_filter, List.mem_range, contains_eq_decide_mem]
  constructor
  · rintro ⟨h1, h2⟩
    refine ⟨h1, ?_⟩
    simpa using h2
  · rintro ⟨h1, h2⟩
    exact ⟨h1, by simpa using h2⟩

theorem zip_marks_none_or_green (solution guess : Word) :
    ∀ p ∈ guess.zip (greenMarks guess solution),
      p.2 = none ∨ p.2 = some Hint.Green := by
  intro p hp
  have h2 := (List.of_mem_zip hp).2
  rw [greenMarks] at h2
  obtain ⟨q, _, hq⟩ := List.mem_map.mp h2
  by_cases hqq : q.1 = q.2
  · right
    rw [← hq, if_pos hqq]
  · left
    rw [← hq, if_neg hqq]

theorem yellowCount_charHints (c : Char) (pairs : List (Char × Hint)) :
    yellowCount (charHints c 0 pairs)
      = List.countP (fun r => r.1 == c && decide (r.2 = Hint.Yellow)) pairs := by
  have hL : yellowCount (charHints c 0 pairs)
      = List.countP (fun a => decide (a.2.2 = Hint.Yellow) && a.2.1 == c)
          (idxZip 0 pairs) := by
    rw [yellowCount, charHints_eq, ← List.countP_eq_length_filter, List.countP_map,
      List.countP_filter]
    rfl
  have hR : List.countP (fun r => r.1 == c && decide (r.2 = Hint.Yellow)) pairs
      = List.countP (fun a => a.2.1 == c && decide (a.2.2 = Hint.Yellow))
          (idxZip 0 pairs) := by
    conv_lhs => rw [← idxZip_map_snd pairs 0]
    exact List.countP_map _ _ _
  rw [hL, hR]
  apply List.countP_congr
  intro a _
  cases hb : (a.2.1 == c) <;> cases hd : decide (a.2.2 = Hint.Yellow) <;>
    simp [hb, hd]

theorem blackCount_charHints (c : Char) (pairs : List (Char × Hint)) :
    blackCount (charHints c 0 pairs)
      = List.countP (fun r => r.1 == c && decide (r.2 = Hint.Black)) pairs := by
  have hL : blackCount (charHints c 0 pairs)
      = List.countP (fun a => decide (a.2.2 = Hint.Black) && a.2.1 == c)
          (idxZip 0 pairs) := by
    rw [blackCount, charHints_eq, ← List.countP_eq_length_filter, List.countP_map,
      List.countP_filter]
    rfl
  have hR : List.countP (fun r => r.1 == c && decide (r.2 = Hint.Black)) pairs
      = List.countP (fun a => a.2.1 == c && decide (a.2.2 = Hint.Black))
          (idxZip 0 pairs) := by
    conv_lhs => rw [← idxZip_map_snd pairs 0]
    exact List.countP_map _ _ _
  rw [hL, hR]
  apply List.countP_congr
  intro a _
  cases hb : (a.2.1 == c) <;> cases hd : decide (a.2.2 = Hint.Black) <;>
    simp [hb, hd]

theorem greenPositions_charHints (c : Char) (pairs : List (Char × Hint)) :
    (greenPositions (charHints c 0 pairs)).length
      = List.countP (fun r => r.1 == c && decide (r.2 = Hint.Green)) pairs := by
  have hL : (greenPositions (charHints c 0 pairs)).length
      = List.countP (fun a => decide (a.2.2 = Hint.Green) && a.2.1 == c)
          (idxZip 0 pairs) := by
    rw [greenPositions, List.length_map, charHints_eq, ← List.countP_eq_length_filter,
      List.countP_map, List.countP_filter]
    rfl
  have hR : List.countP (fun r => r.1 == c && decide (r.2 = Hint.Green)) pairs
      = List.countP (fun a => a.2.1 == c && decide (a.2.2 = Hint.Green))
          (idxZip 0 pairs) := by
    conv_lhs => rw [← idxZip_map_snd pairs 0]
    exact List.countP_map _ _ _
  rw [hL, hR]
  apply List.countP_congr
  intro a _
  cases hb : (a.2.1 == c) <;> cases hd : decide (a.2.2 = Hint.Green) <;>
    simp [hb, hd]

theorem charHints_mem_elim (c : Char) (pairs : List (Char × Hint)) (p : Nat × Hint)
    (hp : p ∈ charHints c 0 pairs) : pairs[p.1]? = some (c, p.2) := by
  rw [charHints_eq] at hp
  obtain ⟨q, hq, hfq⟩ := List.mem_map.mp hp
  obtain ⟨hqm, hqp⟩ := List.mem_filter.mp hq
  have h1 := (mem_idxZip pairs 0 q.1 q.2).mp (by simpa using hqm)
  have hc : q.2.1 = c := by simpa using hqp
  have hp1 : p.1 = q.1 := by rw [← hfq]
  have hp2 : p.2 = q.2.2 := by rw [← hfq]
  rw [hp1, hp2]
  have h2 : pairs[q.1]? = some q.2 := by simpa using h1.2
  rw [h2, ← hc]

theorem charHints_mem_of_getElem (c : Char) (pairs : List (Char × Hint)) (k : Nat)
    (h : Hint) (hk : pairs[k]? = some (c, h)) : (k, h) ∈ charHints c 0 pairs := by
  rw [charHints_eq]
  refine List.mem_map.mpr ⟨(k, (c, h)), ?_, rfl⟩
  refine List.mem_filter.mpr ⟨?_, by simp⟩
  exact (mem_idxZip pairs 0 k (c, h)).mpr ⟨Nat.zero_le k, by simpa using hk⟩

theorem getElem?_zip_elim {α β : Type} (a : List α) (b : List β) (k : Nat)
    (x : α) (y : β) (h : (a.zip b)[k]? = some (x, y)) :
    a[k]? = some x ∧ b[k]? = some y := by
  rw [getElem?_zip] at h
  cases ha : a[k]? with
  | none => rw [ha] at h; simp at h
  | some u =>
    cases hb : b[k]? with
    | none => rw [ha, hb] at h; simp at h
    | some v =>
      rw [ha, hb] at h
      replace h : some (u, v) = some (x, y) := h
      have h' := Option.some.inj h
      exact ⟨congrArg (fun p => some p.1) h', congrArg (fun p => some p.2) h'⟩

theorem greenPositions_nodup (c : Char) (pairs : List (Char × Hint)) :
    (greenPositions (charHints c 0 pairs)).Nodup := by
  rw [greenPositions]
  have h1 : (charHints c 0 pairs).Pairwise (fun p q => p.1 < q.1) :=
    charHints_pairwise c pairs 0
  have h2 : ((charHints c 0 pairs).filter
      (fun p => decide (p.2 = Hint.Green))).Pairwise (fun p q => p.1 < q.1) :=
    List.Pairwise.sublist (List.filter_sublist (charHints c 0 pairs)) h1
  have h3 := List.pairwise_map.mpr h2
  exact h3.imp Nat.ne_of_lt

theorem greenPositions_lt (c : Char) (pairs : List (Char × Hint)) (k : Nat)
    (hk : k ∈ greenPositions (charHints c 0 pairs)) : k < pairs.length := by
  rw [greenPositions] at hk
  obtain ⟨p, hp, rfl⟩ := List.mem_map.mp hk
  have := charHints_bound c pairs 0 p (List.mem_filter.mp hp).1
  omega

theorem mem_greenPositions (c : Char) (pairs : List (Char × Hint)) (k : Nat)
    (hk : k ∈ greenPositions (charHints c 0 pairs)) :
    pairs[k]? = some (c, Hint.Green) := by
  rw [greenPositions] at hk
  obtain ⟨p, hp, hpk⟩ := List.mem_map.mp hk
  obtain ⟨hmem, hgrn⟩ := List.mem_filter.mp hp
  have h1 := charHints_mem_elim c pairs p hmem
  have h2 : p.2 = Hint.Green := by simpa using hgrn
  rw [← hpk, h1, h2]

/-- The count of `c` over the free positions equals the solution's count of
`c` minus its exact-position matches (the remaining multiset after
pass 1). -/
theorem free_count (solution guess : Word) (hsol : solution.length = 5)
    (hg : guess.length = 5) (c : Char) :
    countFrom (Constraint.notAt (greenPositions
        (charHints c 0 (guess.zip (specHints solution guess))))) c 0 solution
      = specCounts solution guess c := by
  have hhlen : (specHints solution guess).length = 5 := specHints_length solution guess hsol hg
  have hplen : (guess.zip (specHints solution guess)).length = 5 := by
    rw [List.length_zip, hg, hhlen]
    simp
  set G := greenPositions (charHints c 0 (guess.zip (specHints solution guess))) with hGdef
  -- membership in G forces the solution character
  have hGsol : ∀ k ∈ G, solution[k]? = some c := by
    intro k hk
    have hpg := mem_greenPositions c _ k hk
    obtain ⟨hgk, hhk⟩ := getElem?_zip_elim _ _ _ _ _ hpg
    exact (green_iff solution guess hsol hg k c hgk).mp hhk
  have hGlt : ∀ k ∈ G, k < 5 := by
    intro k hk
    have := greenPositions_lt c _ k hk
    omega
  -- step 1: express the free count over the indexed enumeration
  rw [countFrom_eq_countP]
  -- step 2: `notAt` membership is boolean complement below the word size
  have hstep2 : List.countP (fun p => (Constraint.notAt G).contains p.1 && p.2 == c)
        (idxZip 0 solution)
      = List.countP (fun p => !(G.contains p.1) && p.2 == c) (idxZip 0 solution) := by
    apply List.countP_congr
    intro a ha
    have hlt : a.1 < 5 := by
      have h1 := (mem_idxZip solution 0 a.1 a.2).mp (by simpa using ha)
      have := (List.getElem?_eq_some.mp h1.2).1
      omega
    have hiff : a.1 ∈ Constraint.notAt G ↔ ¬ a.1 ∈ G :=
      ⟨fun h => ((mem_notAt G a.1).mp h).2, fun h => (mem_notAt G a.1).mpr ⟨hlt, h⟩⟩
    have hcc : (Constraint.notAt G).contains a.1 = !(G.contains a.1) := by
      rw [contains_eq_decide_mem, contains_eq_decide_mem, ← decide_not]
      exact decide_eq_decide.mpr hiff
    rw [hcc]
  rw [hstep2]
  -- step 3: split the total count of c along membership in G
  have hsplit := countP_split (fun p => G.contains p.1) (fun p => p.2 == c)
    (idxZip 0 solution)
  -- step 4: the total count of c is the solution's count
  have htot : List.countP (fun p => p.2 == c) (idxZip 0 solution)
      = solution.count c := by
    have h1 : List.countP (fun x => x == c) ((idxZip 0 solution).map Prod.snd)
        = List.countP (fun p => p.2 == c) (idxZip 0 solution) :=
      List.countP_map _ _ _
    rw [← h1, idxZip_map_snd]
    exact (List.count_eq_countP _ _).symm
  -- step 5: the G-part of the count is exactly G.length
  have hGc : List.countP (fun p => G.contains p.1 && p.2 == c) (idxZip 0 solution)
      = List.countP (fun p => G.contains p.1) (idxZip 0 solution) := by
    apply List.countP_congr
    intro a ha
    by_cases hmem : a.1 ∈ G
    · have h1 := (mem_idxZip solution 0 a.1 a.2).mp (by simpa using ha)
      have h2 : solution[a.1]? = some a.2 := by simpa using h1.2
      have h3 : a.2 = c := Option.some.inj ((hGsol a.1 hmem).symm.trans h2).symm
      rw [contains_eq_decide_mem]
      simp [hmem, h3]
    · rw [contains_eq_decide_mem]
      simp [hmem]
  have hGlen : List.countP (fun p => G.contains p.1) (idxZip 0 solution) = G.length :=
    countP_contains_idxZip solution G (greenPositions_nodup c _)
      (fun k hk => by rw [hsol]; exact hGlt k hk)
  -- step 6: G.length is the number of exact-position matches of c
  have hpt : ∀ (k : Nat) (x : Char) (y : Hint) (z : Char), guess[k]? = some x →
      (specHints solution guess)[k]? = some y → solution[k]? = some z →
      (x == c && decide (y = Hint.Green)) = (x == z && x == c) := by
    intro k x y z hx hy hz
    have hiff : y = Hint.Green ↔ x = z := by
      constructor
      · intro hyg
        have := (green_iff solution guess hsol hg k x hx).mp (by rw [hy, hyg])
        rw [hz] at this
        exact (Option.some.inj this).symm
      · intro hxz
        have := (green_iff solution guess hsol hg k x hx).mpr (by rw [hz, hxz])
        rw [hy] at this
        exact Option.some.inj this
    cases hxc : (x == c)
    · simp [hxc]
    · simp only [hxc, Bool.and_true, Bool.true_and]
      cases hxz : (x == z)
      · have hne : ¬ (y = Hint.Green) := fun h => by
          have := hiff.mp h
          rw [this] at hxz
          simp at hxz
        simp [hne]
      · have hxz' : x = z := by simpa using hxz
        simp [hiff.mpr hxz']
  have hGmatch : G.length
      = ((guess.zip solution).filter (fun p => p.1 == p.2 && p.1 == c)).length := by
    rw [hGdef, greenPositions_charHints, ← List.countP_eq_length_filter]
    exact countP_zip_congr guess (specHints solution guess) solution
      (fun x y => x == c && decide (y = Hint.Green))
      (fun x z => x == z && x == c) (by rw [hhlen, hsol]) hpt
  -- assemble
  rw [specCounts, ← hGmatch]
  omega

/-- The per-character `Yellow`/`Black` counts of the derived hints against
the remaining multiset: `Y ≤` remaining count, with equality as soon as a
`Black` hint exists for the character. -/
theorem yellow_black_bound (solution guess : Word) (hsol : solution.length = 5)
    (hg : guess.length = 5) (c : Char) :
    yellowCount (charHints c 0 (guess.zip (specHints solution guess)))
      ≤ specCounts solution guess c
    ∧ (0 < blackCount (charHints c 0 (guess.zip (specHints solution guess))) →
        yellowCount (charHints c 0 (guess.zip (specHints solution guess)))
          = specCounts solution guess c) := by
  have hmlen : (greenMarks guess solution).length = 5 := by
    rw [greenMarks, List.length_map, List.length_zip, hsol, hg]
    simp
  have hglen : guess.length = (greenMarks guess solution).length := by
    rw [hg, hmlen]
  have hcounts := specPass2_counts (guess.zip (greenMarks guess solution))
    (specCounts solution guess) c (zip_marks_none_or_green solution guess)
  have hzz : ((guess.zip (greenMarks guess solution)).zip
        (specPass2 (guess.zip (greenMarks guess solution)) (specCounts solution guess))).map
          (fun q => (q.1.1, q.2))
      = guess.zip (specHints solution guess) := by
    rw [zip_zip_map guess (greenMarks guess solution) _ hglen]
    rfl
  have hY : List.countP (fun q => q.1.1 == c && decide (q.2 = Hint.Yellow))
        ((guess.zip (greenMarks guess solution)).zip
          (specPass2 (guess.zip (greenMarks guess solution)) (specCounts solution guess)))
      = yellowCount (charHints c 0 (guess.zip (specHints solution guess))) := by
    rw [yellowCount_charHints]
    have h1 : List.countP (fun r => r.1 == c && decide (r.2 = Hint.Yellow))
          (((guess.zip (greenMarks guess solution)).zip
            (specPass2 (guess.zip (greenMarks guess solution))
              (specCounts solution guess))).map (fun q => (q.1.1, q.2)))
        = List.countP (fun q => q.1.1 == c && decide (q.2 = Hint.Yellow))
          ((guess.zip (greenMarks guess solution)).zip
            (specPass2 (guess.zip (greenMarks guess solution))
              (specCounts solution guess))) :=
      List.countP_map _ _ _
    rw [← h1, hzz]
  have hB : List.countP (fun q => q.1.1 == c && decide (q.2 = Hint.Black))
        ((guess.zip (greenMarks guess solution)).zip
          (specPass2 (guess.zip (greenMarks guess solution)) (specCounts solution guess)))
      = blackCount (charHints c 0 (guess.zip (specHints solution guess))) := by
    rw [blackCount_charHints]
    have h1 : List.countP (fun r => r.1 == c && decide (r.2 = Hint.Black))
          (((guess.zip (greenMarks guess solution)).zip
            (specPass2 (guess.zip (greenMarks guess solution))
              (specCounts solution guess))).map (fun q => (q.1.1, q.2)))
        = List.countP (fun q => q.1.1 == c && decide (q.2 = Hint.Black))
          ((guess.zip (greenMarks guess solution)).zip
            (specPass2 (guess.zip (greenMarks guess solution))
              (specCounts solution guess))) :=
      List.countP_map _ _ _
    rw [← h1, hzz]
  rw [hY, hB] at hcounts
  exact hcounts

/-- Positional soundness: a `Green` position locks the solution's
character. -/
theorem lock_sound (solution guess : Word) (hsol : solution.length = 5)
    (hg : guess.length = 5) (c : Char) (k : Nat)
    (hk : (guess.zip (specHints solution guess))[k]? = some (c, Hint.Green)) :
    (Constraint.lock k c).matches solution = true := by
  obtain ⟨hgk, hhk⟩ := getElem?_zip_elim _ _ _ _ _ hk
  have hsolc : solution[k]? = some c :=
    (green_iff solution guess hsol hg k c hgk).mp hhk
  simp only [Constraint.lock, Constraint.matches]
  rw [countFrom_singleton]
  simp [hsolc]

/-- Positional soundness: a `Yellow` or `Black` position forbids the
guessed character there. -/
theorem forbid_sound (solution guess : Word) (hsol : solution.length = 5)
    (hg : guess.length = 5) (c : Char) (k : Nat) (h : Hint)
    (hne : h ≠ Hint.Green)
    (hk : (guess.zip (specHints solution guess))[k]? = some (c, h)) :
    (Constraint.forbid k c).matches solution = true := by
  obtain ⟨hgk, hhk⟩ := getElem?_zip_elim _ _ _ _ _ hk
  have hsolc : ¬ solution[k]? = some c := by
    intro hcontra
    have := (green_iff solution guess hsol hg k c hgk).mpr hcontra
    rw [hhk] at this
    exact hne (Option.some.inj this)
  simp only [Constraint.forbid, Constraint.matches]
  rw [countFrom_singleton]
  simp [hsolc]

/-- Exhaustive shape analysis of the constraints emitted for one
character. -/
theorem constraint_cases (c : Char) (hs : List (Nat × Hint)) (con : Constraint)
    (hcon : con ∈ constraintsForChar c hs) :
    (∃ p ∈ hs, p.2 = Hint.Green ∧ con = Constraint.lock p.1 c) ∨
    (∃ p ∈ hs, p.2 ≠ Hint.Green ∧ con = Constraint.forbid p.1 c) ∨
    (0 < yellowCount hs ∧
      con = Constraint.atLeast (Constraint.notAt (greenPositions hs)) (yellowCount hs) c) ∨
    (0 < blackCount hs ∧
      con = Constraint.atMost (Constraint.notAt (greenPositions hs)) (yellowCount hs) c) := by
  rw [constraintsForChar] at hcon
  rcases List.mem_append.mp hcon with hmap | hcnt
  · obtain ⟨p, hp, hfp⟩ := List.mem_map.mp hmap
    cases hph : p.2 with
    | Green =>
      left
      rw [hph] at hfp
      exact ⟨p, hp, hph, hfp.symm⟩
    | Yellow =>
      right; left
      rw [hph] at hfp
      exact ⟨p, hp, by rw [hph]; decide, hfp.symm⟩
    | Black =>
      right; left
      rw [hph] at hfp
      exact ⟨p, hp, by rw [hph]; decide, hfp.symm⟩
  · by_cases hY : 0 < yellowCount hs <;> by_cases hB : 0 < blackCount hs
    · rw [if_pos (by simp [hY]), if_pos (by simpa using hY), if_pos (by simpa using hB)]
        at hcnt
      rcases List.mem_append.mp hcnt with h | h
      · right; right; left
        exact ⟨hY, by simpa using h⟩
      · right; right; right
        exact ⟨hB, by simpa using h⟩
    · rw [if_pos (by simp [hY]), if_pos (by simpa using hY),
        if_neg (by simpa using hB)] at hcnt
      rcases List.mem_append.mp hcnt with h | h
      · right; right; left
        exact ⟨hY, by simpa using h⟩
      · exact absurd h (by simp)
    · rw [if_pos (by simp [hB]), if_neg (by simpa using hY),
        if_pos (by simpa using hB)] at hcnt
      rcases List.mem_append.mp hcnt with h | h
      · exact absurd h (by simp)
      · right; right; right
        exact ⟨hB, by simpa using h⟩
    · rw [if_neg (by simp [hY, hB])] at hcnt
      exact absurd hcnt (by simp)

/-- C5: the solution always satisfies the constraint set derived from the
feedback of any of its own guesses. -/
theorem C5_constraint_soundness (solution guess : Word)
    (hsol : solution.length = 5) (hg : guess.length = 5) :
    ∃ p, Pattern.fromSolutionAndGuess solution guess = some p ∧
      Constraints.matches (Constraints.fromPattern p) solution = true := by
  refine ⟨⟨guess, specHints solution guess⟩,
    fromSolutionAndGuess_spec solution guess hsol hg, ?_⟩
  rw [Constraints.matches, List.all_eq_true]
  intro con hcon
  simp only [Constraints.fromPattern] at hcon
  obtain ⟨c, hcdedup, hcf⟩ := List.mem_flatMap.mp hcon
  rcases constraint_cases c _ con hcf with
    ⟨q, hq, hq2, rfl⟩ | ⟨q, hq, hq2, rfl⟩ | ⟨hY, rfl⟩ | ⟨hB, rfl⟩
  · have hmem := charHints_mem_elim c _ q hq
    rw [hq2] at hmem
    exact lock_sound solution guess hsol hg c q.1 hmem
  · have hmem := charHints_mem_elim c _ q hq
    exact forbid_sound solution guess hsol hg c q.1 q.2 hq2 hmem
  · simp only [Constraint.matches]
    rw [free_count solution guess hsol hg c]
    have := (yellow_black_bound solution guess hsol hg c).1
    simpa using this
  · simp only [Constraint.matches]
    rw [free_count solution guess hsol hg c]
    have := (yellow_black_bound solution guess hsol hg c).2 hB
    simp [this]

/-- Witness for C5 at solution "tonal", guess "swoop". -/
theorem C5_constraint_soundness_witness :
    ∃ p, Pattern.fromSolutionAndGuess ['t','o','n','a','l'] ['s','w','o','o','p'] = some p ∧
      Constraints.matches (Constraints.fromPattern p) ['t','o','n','a','l'] = true :=
  C5_constraint_soundness ['t','o','n','a','l'] ['s','w','o','o','p'] rfl rfl

/-! ## Shape of the emitted constraint set (claims C1 and C3) -/

theorem constraintsForChar_char (c : Char) (hs : List (Nat × Hint)) (con : Constraint)
    (h : con ∈ constraintsForChar c hs) : con.char = c := by
  rcases constraint_cases c hs con h with
    ⟨q, _, _, rfl⟩ | ⟨q, _, _, rfl⟩ | ⟨_, rfl⟩ | ⟨_, rfl⟩ <;> rfl

theorem mem_fromPattern_iff (guess : Word) (hints : List Hint) (c : Char)
    (con : Constraint) (hchar : con.char = c) (hc : c ∈ guess) :
    con ∈ Constraints.fromPattern ⟨guess, hints⟩ ↔
      con ∈ constraintsForChar c (charHints c 0 (guess.zip hints)) := by
  simp only [Constraints.fromPattern]
  rw [List.mem_flatMap]
  constructor
  · rintro ⟨d, _, hdf⟩
    have hd := constraintsForChar_char d _ con hdf
    obtain rfl : d = c := by rw [← hd, hchar]
    exact hdf
  · intro h
    exact ⟨c, List.mem_dedup.mpr hc, h⟩

theorem mem_greenPositions_of (hs : List (Nat × Hint)) (q : Nat × Hint)
    (hq : q ∈ hs) (h2 : q.2 = Hint.Green) : q.1 ∈ greenPositions hs :=
  List.mem_map.mpr ⟨q, List.mem_filter.mpr ⟨hq, by simp [h2]⟩, rfl⟩

theorem yellowCount_pos_of_mem (hs : List (Nat × Hint)) (q : Nat × Hint)
    (hq : q ∈ hs) (h2 : q.2 = Hint.Yellow) : 0 < yellowCount hs := by
  rw [yellowCount]
  have hmem : q ∈ hs.filter (fun p => decide (p.2 = Hint.Yellow)) :=
    List.mem_filter.mpr ⟨hq, by simp [h2]⟩
  exact List.length_pos.mpr (List.ne_nil_of_mem hmem)

theorem blackCount_pos_of_mem (hs : List (Nat × Hint)) (q : Nat × Hint)
    (hq : q ∈ hs) (h2 : q.2 = Hint.Black) : 0 < blackCount hs := by
  rw [blackCount]
  have hmem : q ∈ hs.filter (fun p => decide (p.2 = Hint.Black)) :=
    List.mem_filter.mpr ⟨hq, by simp [h2]⟩
  exact List.length_pos.mpr (List.ne_nil_of_mem hmem)

theorem atLeast_mem_iff (c : Char) (hs : List (Nat × Hint)) :
    Constraint.atLeast (Constraint.notAt (greenPositions hs)) (yellowCount hs) c
        ∈ constraintsForChar c hs
      ↔ 0 < yellowCount hs := by
  constructor
  · intro h
    rcases constraint_cases c hs _ h with
      ⟨q, hq, hq2, heq⟩ | ⟨q, hq, hq2, heq⟩ | ⟨hY, _⟩ | ⟨hB, heq⟩
    · -- a lock over a single green position cannot be the free-positions bound
      rw [Constraint.lock] at heq
      have hpos : Constraint.notAt (greenPositions hs) = [q.1] := by
        injection heq
      have hqG : q.1 ∈ greenPositions hs := mem_greenPositions_of hs q hq hq2
      have : q.1 ∈ Constraint.notAt (greenPositions hs) := by
        rw [hpos]
        simp
      exact absurd ((mem_notAt _ _).mp this).2 (by simp [hqG])
    · rw [Constraint.forbid] at heq
      cases heq
    · exact hY
    · cases heq
  · intro hY
    rw [constraintsForChar]
    refine List.mem_append.mpr (Or.inr ?_)
    rw [if_pos (by simp [hY]), if_pos (by simpa using hY)]
    exact List.mem_append.mpr (Or.inl (by simp))

theorem atMost_mem_iff (c : Char) (hs : List (Nat × Hint)) :
    Constraint.atMost (Constraint.notAt (greenPositions hs)) (yellowCount hs) c
        ∈ constraintsForChar c hs
      ↔ 0 < blackCount hs := by
  constructor
  · intro h
    rcases constraint_cases c hs _ h with
      ⟨q, hq, hq2, heq⟩ | ⟨q, hq, hq2, heq⟩ | ⟨hY, heq⟩ | ⟨hB, _⟩
    · rw [Constraint.lock] at heq
      cases heq
    · -- a forbid can coincide only when the yellow count is zero, which
      -- forces the occurrence to be Black
      rw [Constraint.forbid] at heq
      have hcnt : yellowCount hs = 0 := by
        injection heq
      cases hq2h : q.2 with
      | Green => exact absurd hq2h hq2
      | Yellow =>
        have := yellowCount_pos_of_mem hs q hq hq2h
        omega
      | Black => exact blackCount_pos_of_mem hs q hq hq2h
    · cases heq
    · exact hB
  · intro hB
    rw [constraintsForChar]
    refine List.mem_append.mpr (Or.inr ?_)
    rw [if_pos (by simp [hB])]
    refine List.mem_append.mpr (Or.inr ?_)
    rw [if_pos (by simpa using hB)]
    simp

/-- C1: for each distinct guess character, `Constraints::from_pattern`
emits the free-positions lower bound (count ≥ Y) exactly when Y > 0 and
the free-positions upper bound (count ≤ Y) exactly when B > 0, and emits
no other constraint for that character whose position set has two or more
positions. -/
theorem C1_counting_constraints (guess : Word) (hints : List Hint) (c : Char)
    (hg : guess.length = 5) (hh : hints.length = 5) (hc : c ∈ guess) :
    (Constraint.atLeast
        (Constraint.notAt (greenPositions (charHints c 0 (guess.zip hints))))
        (yellowCount (charHints c 0 (guess.zip hints))) c
      ∈ Constraints.fromPattern ⟨guess, hints⟩
      ↔ 0 < yellowCount (charHints c 0 (guess.zip hints)))
    ∧ (Constraint.atMost
        (Constraint.notAt (greenPositions (charHints c 0 (guess.zip hints))))
        (yellowCount (charHints c 0 (guess.zip hints))) c
      ∈ Constraints.fromPattern ⟨guess, hints⟩
      ↔ 0 < blackCount (charHints c 0 (guess.zip hints)))
    ∧ (∀ con ∈ Constraints.fromPattern ⟨guess, hints⟩, con.char = c →
        2 ≤ con.positions.length →
        con = Constraint.atLeast
          (Constraint.notAt (greenPositions (charHints c 0 (guess.zip hints))))
          (yellowCount (charHints c 0 (guess.zip hints))) c ∨
        con = Constraint.atMost
          (Constraint.notAt (greenPositions (charHints c 0 (guess.zip hints))))
          (yellowCount (charHints c 0 (guess.zip hints))) c) := by
  refine ⟨?_, ?_, ?_⟩
  · exact (mem_fromPattern_iff guess hints c
      (Constraint.atLeast (Constraint.notAt (greenPositions (charHints c 0 (guess.zip hints))))
        (yellowCount (charHints c 0 (guess.zip hints))) c) rfl hc).trans
      (atLeast_mem_iff c _)
  · exact (mem_fromPattern_iff guess hints c
      (Constraint.atMost (Constraint.notAt (greenPositions (charHints c 0 (guess.zip hints))))
        (yellowCount (charHints c 0 (guess.zip hints))) c) rfl hc).trans
      (atMost_mem_iff c _)
  · intro con hcon hchar hlen
    rw [mem_fromPattern_iff guess hints c _ hchar hc] at hcon
    rcases constraint_cases c _ con hcon with
      ⟨q, _, _, rfl⟩ | ⟨q, _, _, rfl⟩ | ⟨_, rfl⟩ | ⟨_, rfl⟩
    · rw [Constraint.lock, Constraint.positions] at hlen
      simp at hlen
    · rw [Constraint.forbid, Constraint.positions] at hlen
      simp at hlen
    · exact Or.inl rfl
    · exact Or.inr rfl

/-- Witness for C1: guess "swoop" against solution "tonal" gives 'o' one
Yellow and one Black hint, so both counting constraints are emitted. -/
theorem C1_counting_constraints_witness :
    (Constraint.atLeast
        (Constraint.notAt (greenPositions (charHints 'o' 0
          (['s','w','o','o','p'].zip [Hint.Black, Hint.Black, Hint.Yellow, Hint.Black, Hint.Black]))))
        (yellowCount (charHints 'o' 0
          (['s','w','o','o','p'].zip [Hint.Black, Hint.Black, Hint.Yellow, Hint.Black, Hint.Black]))) 'o'
      ∈ Constraints.fromPattern ⟨['s','w','o','o','p'],
          [Hint.Black, Hint.Black, Hint.Yellow, Hint.Black, Hint.Black]⟩
      ↔ 0 < yellowCount (charHints 'o' 0
          (['s','w','o','o','p'].zip [Hint.Black, Hint.Black, Hint.Yellow, Hint.Black, Hint.Black])))
    ∧ (Constraint.atMost
        (Constraint.notAt (greenPositions (charHints 'o' 0
          (['s','w','o','o','p'].zip [Hint.Black, Hint.Black, Hint.Yellow, Hint.Black, Hint.Black]))))
        (yellowCount (charHints 'o' 0
          (['s','w','o','o','p'].zip [Hint.Black, Hint.Black, Hint.Yellow, Hint.Black, Hint.Black]))) 'o'
      ∈ Constraints.fromPattern ⟨['s','w','o','o','p'],
          [Hint.Black, Hint.Black, Hint.Yellow, Hint.Black, Hint.Black]⟩
      ↔ 0 < blackCount (charHints 'o' 0
          (['s','w','o','o','p'].zip [Hint.Black, Hint.Black, Hint.Yellow, Hint.Black, Hint.Black])))
    ∧ (∀ con ∈ Constraints.fromPattern ⟨['s','w','o','o','p'],
          [Hint.Black, Hint.Black, Hint.Yellow, Hint.Black, Hint.Black]⟩,
        con.char = 'o' → 2 ≤ con.positions.length →
        con = Constraint.atLeast
          (Constraint.notAt (greenPositions (charHints 'o' 0
            (['s','w','o','o','p'].zip [Hint.Black, Hint.Black, Hint.Yellow, Hint.Black, Hint.Black]))))
          (yellowCount (charHints 'o' 0
            (['s','w','o','o','p'].zip [Hint.Black, Hint.Black, Hint.Yellow, Hint.Black, Hint.Black]))) 'o' ∨
        con = Constraint.atMost
          (Constraint.notAt (greenPositions (charHints 'o' 0
            (['s','w','o','o','p'].zip [Hint.Black, Hint.Black, Hint.Yellow, Hint.Black, Hint.Black]))))
          (yellowCount (charHints 'o' 0
            (['s','w','o','o','p'].zip [Hint.Black, Hint.Black, Hint.Yellow, Hint.Black, Hint.Black]))) 'o') :=
  C1_counting_constraints ['s','w','o','o','p']
    [Hint.Black, Hint.Black, Hint.Yellow, Hint.Black, Hint.Black] 'o'
    rfl rfl (by decide)

/-- C3: a `Correct` hint at position `i` for character `c` yields the
locking constraint (count of `c` in `{i}` ≥ 1), and a `Present` or
`Absent` hint yields the forbidding constraint (count of `c` in `{i}`
≤ 0); those constraints are satisfied exactly by words with, resp.
without, `c` at position `i`. -/
theorem C3_positional_constraints (guess : Word) (hints : List Hint) (c : Char)
    (h : Hint) (k : Nat) (hg : guess.length = 5) (hh : hints.length = 5)
    (hgk : guess[k]? = some c) (hhk : hints[k]? = some h) :
    (h = Hint.Green → Constraint.lock k c ∈ Constraints.fromPattern ⟨guess, hints⟩)
    ∧ (h = Hint.Yellow ∨ h = Hint.Black →
        Constraint.forbid k c ∈ Constraints.fromPattern ⟨guess, hints⟩)
    ∧ (∀ w : Word, w.length = 5 →
        ((Constraint.lock k c).matches w = true ↔ w[k]? = some c)
        ∧ ((Constraint.forbid k c).matches w = true ↔ ¬ w[k]? = some c)) := by
  have hc : c ∈ guess := List.mem_iff_getElem?.mpr ⟨k, hgk⟩
  have hzk : (guess.zip hints)[k]? = some (c, h) := by
    rw [getElem?_zip, hgk, hhk]
    rfl
  have hmem : (k, h) ∈ charHints c 0 (guess.zip hints) :=
    charHints_mem_of_getElem c _ k h hzk
  refine ⟨?_, ?_, ?_⟩
  · intro hgr
    subst hgr
    rw [mem_fromPattern_iff guess hints c (Constraint.lock k c) rfl hc, constraintsForChar]
    refine List.mem_append.mpr (Or.inl ?_)
    exact List.mem_map.mpr ⟨(k, Hint.Green), hmem, rfl⟩
  · intro hyb
    rw [mem_fromPattern_iff guess hints c (Constraint.forbid k c) rfl hc, constraintsForChar]
    refine List.mem_append.mpr (Or.inl ?_)
    rcases hyb with rfl | rfl
    · exact List.mem_map.mpr ⟨(k, Hint.Yellow), hmem, rfl⟩
    · exact List.mem_map.mpr ⟨(k, Hint.Black), hmem, rfl⟩
  · intro w _
    constructor
    · simp only [Constraint.lock, Constraint.matches]
      rw [countFrom_singleton]
      by_cases hw : w[k]? = some c
      · simp [hw]
      · simp [hw]
    · simp only [Constraint.forbid, Constraint.matches]
      rw [countFrom_singleton]
      by_cases hw : w[k]? = some c
      · simp [hw]
      · simp [hw]

/-- Witness for C3: 'a' is Present (Yellow) at position 2 of guess
"stare" against solution "larva". -/
theorem C3_positional_constraints_witness :
    (Hint.Yellow = Hint.Green →
      Constraint.lock 2 'a' ∈ Constraints.fromPattern ⟨['s','t','a','r','e'],
        [Hint.Black, Hint.Black, Hint.Yellow, Hint.Yellow, Hint.Black]⟩)
    ∧ (Hint.Yellow = Hint.Yellow ∨ Hint.Yellow = Hint.Black →
        Constraint.forbid 2 'a' ∈ Constraints.fromPattern ⟨['s','t','a','r','e'],
          [Hint.Black, Hint.Black, Hint.Yellow, Hint.Yellow, Hint.Black]⟩)
    ∧ (∀ w : Word, w.length = 5 →
        ((Constraint.lock 2 'a').matches w = true ↔ w[2]? = some 'a')
        ∧ ((Constraint.forbid 2 'a').matches w = true ↔ ¬ w[2]? = some 'a')) := by
  exact C3_positional_constraints ['s','t','a','r','e']
    [Hint.Black, Hint.Black, Hint.Yellow, Hint.Yellow, Hint.Black] 'a' Hint.Yellow 2
    rfl rfl (by decide) (by decide)

/-! ## Library entry points (claims C6, C7, C9) -/

theorem all_map_general {α β : Type} (f : α → β) (p : β → Bool) :
    ∀ l : List α, (l.map f).all p = l.all fun a => p (f a) := by
  intro l
  induction l with
  | nil => rfl
  | cons x xs ih => simp [ih]

theorem filterOpt_some {α : Type} (p : α → Option Bool) (q : α → Bool) :
    ∀ l : List α, (∀ x ∈ l, p x = some (q x)) →
    filterOpt p l = some (l.filter q) := by
  intro l
  induction l with
  | nil => intro _; rfl
  | cons x xs ih =>
    intro hall
    have hx : p x = some (q x) := hall x (by simp)
    have hxs := ih (fun y hy => hall y (by simp [hy]))
    cases hqx : q x <;>
      simp [filterOpt, hx, hxs, hqx, List.filter_cons]

theorem collectPatterns_some (solution : Word) (hsol : solution.length = 5) :
    ∀ guesses : List Word, (∀ g ∈ guesses, g.length = 5) →
    collectPatterns solution guesses
      = some (guesses.map fun g => ⟨g, specHints solution g⟩) := by
  intro guesses
  induction guesses with
  | nil => intro _; rfl
  | cons g rest ih =>
    intro hall
    have hg := fromSolutionAndGuess_spec solution g hsol (hall g (by simp))
    have hrest := ih (fun x hx => hall x (by simp [hx]))
    simp [collectPatterns, hg, hrest]

theorem collectGuessHints_some (solution : Word) (hsol : solution.length = 5) :
    ∀ guesses : List Word, (∀ g ∈ guesses, g.length = 5) →
    collectGuessHints solution guesses
      = some (guesses.map fun g => (g, specHints solution g)) := by
  intro guesses
  induction guesses with
  | nil => intro _; rfl
  | cons g rest ih =>
    intro hall
    have hg := fromSolutionAndGuess_spec solution g hsol (hall g (by simp))
    have hrest := ih (fun x hx => hall x (by simp [hx]))
    simp [collectGuessHints, hg, hrest]

/-- C6: `wools::matches` returns, in their original order, exactly the
candidates whose derived feedback against the solution equals the target
hint sequence; it rederives feedback per candidate and compares hint
sequences, rather than filtering through constraints. -/
theorem C6_matches_by_pattern (words : List Word) (solution : Word) (hints : List Hint)
    (hsol : solution.length = 5) (hw : ∀ w ∈ words, w.length = 5) :
    matchesWords words solution hints
      = some (words.filter fun w => decide (specHints solution w = hints))
    ∧ ∀ w ∈ words, Pattern.fromSolutionAndGuess solution w
        = some ⟨w, specHints solution w⟩ := by
  constructor
  · rw [matchesWords]
    apply filterOpt_some
    intro w hwmem
    rw [fromSolutionAndGuess_spec solution w hsol (hw w hwmem)]
    rfl
  · exact fun w hwmem => fromSolutionAndGuess_spec solution w hsol (hw w hwmem)

/-- Witness for C6 on the library doctest: candidates
["cargo","babel","orbit"], solution "cargo", hints bgbbb. -/
theorem C6_matches_by_pattern_witness :
    (matchesWords [['c','a','r','g','o'], ['b','a','b','e','l'], ['o','r','b','i','t']]
        ['c','a','r','g','o']
        [Hint.Black, Hint.Green, Hint.Black, Hint.Black, Hint.Black]
      = some ([['c','a','r','g','o'], ['b','a','b','e','l'], ['o','r','b','i','t']].filter
          fun w => decide (specHints ['c','a','r','g','o'] w
            = [Hint.Black, Hint.Green, Hint.Black, Hint.Black, Hint.Black])))
    ∧ ∀ w ∈ [['c','a','r','g','o'], ['b','a','b','e','l'], ['o','r','b','i','t']],
        Pattern.fromSolutionAndGuess ['c','a','r','g','o'] w
          = some ⟨w, specHints ['c','a','r','g','o'] w⟩ :=
  C6_matches_by_pattern
    [['c','a','r','g','o'], ['b','a','b','e','l'], ['o','r','b','i','t']]
    ['c','a','r','g','o'] [Hint.Black, Hint.Green, Hint.Black, Hint.Black, Hint.Black]
    rfl (by decide)

/-- C7: `wools::filter` keeps exactly the candidates satisfying every
constraint of every per-guess constraint set, preserving the input
order. -/
theorem C7_filter_by_guesses (words : List Word) (solution : Word) (guesses : List Word)
    (hsol : solution.length = 5) (hg : ∀ g ∈ guesses, g.length = 5) :
    filter words solution guesses
      = some (words.filter fun w => guesses.all fun g =>
          Constraints.matches (Constraints.fromPattern ⟨g, specHints solution g⟩) w)
    ∧ (words.filter fun w => guesses.all fun g =>
          Constraints.matches (Constraints.fromPattern ⟨g, specHints solution g⟩) w).Sublist
        words
    ∧ ∀ g ∈ guesses, Pattern.fromSolutionAndGuess solution g
        = some ⟨g, specHints solution g⟩ := by
  refine ⟨?_, List.filter_sublist words,
    fun g hgm => fromSolutionAndGuess_spec solution g hsol (hg g hgm)⟩
  · rw [filter, collectPatterns_some solution hsol guesses hg]
    simp only [Option.bind_eq_bind, Option.some_bind]
    congr 1
    apply List.filter_congr
    intro w _
    rw [List.map_map, all_map_general]
    rfl

/-- Witness for C7 on the library test: candidates include "apple" and
"prime", solution "apple", guess "coupe". -/
theorem C7_filter_by_guesses_witness :
    filter [['a','p','p','l','e'], ['p','r','i','m','e'], ['t','o','r','c','h']]
        ['a','p','p','l','e'] [['c','o','u','p','e']]
      = some ([['a','p','p','l','e'], ['p','r','i','m','e'], ['t','o','r','c','h']].filter
          fun w => [['c','o','u','p','e']].all fun g =>
            Constraints.matches
              (Constraints.fromPattern ⟨g, specHints ['a','p','p','l','e'] g⟩) w)
    ∧ ([['a','p','p','l','e'], ['p','r','i','m','e'], ['t','o','r','c','h']].filter
        fun w => [['c','o','u','p','e']].all fun g =>
          Constraints.matches
            (Constraints.fromPattern ⟨g, specHints ['a','p','p','l','e'] g⟩) w).Sublist
      [['a','p','p','l','e'], ['p','r','i','m','e'], ['t','o','r','c','h']]
    ∧ ∀ g ∈ [['c','o','u','p','e']],
        Pattern.fromSolutionAndGuess ['a','p','p','l','e'] g
          = some ⟨g, specHints ['a','p','p','l','e'] g⟩ :=
  C7_filter_by_guesses
    [['a','p','p','l','e'], ['p','r','i','m','e'], ['t','o','r','c','h']]
    ['a','p','p','l','e'] [['c','o','u','p','e']] rfl (by decide)

/-- C9: filtering by a known solution agrees with `wools::solve` run on
the guesses paired with their derived hints. -/
theorem C9_filter_solve_agree (words : List Word) (solution : Word) (guesses : List Word)
    (hsol : solution.length = 5) (hg : ∀ g ∈ guesses, g.length = 5) :
    ∃ pairs, collectGuessHints solution guesses = some pairs ∧
      filter words solution guesses = some (solve words pairs) := by
  refine ⟨guesses.map fun g => (g, specHints solution g),
    collectGuessHints_some solution hsol guesses hg, ?_⟩
  rw [filter, collectPatterns_some solution hsol guesses hg]
  simp only [Option.bind_eq_bind, Option.some_bind]
  rw [solve, List.map_map, List.map_map]
  rfl

/-- Witness for C9 on the same scenario as C7. -/
theorem C9_filter_solve_agree_witness :
    ∃ pairs, collectGuessHints ['a','p','p','l','e'] [['c','o','u','p','e']] = some pairs ∧
      filter [['a','p','p','l','e'], ['p','r','i','m','e'], ['t','o','r','c','h']]
          ['a','p','p','l','e'] [['c','o','u','p','e']]
        = some (solve [['a','p','p','l','e'], ['p','r','i','m','e'], ['t','o','r','c','h']]
            pairs) :=
  C9_filter_solve_agree
    [['a','p','p','l','e'], ['p','r','i','m','e'], ['t','o','r','c','h']]
    ['a','p','p','l','e'] [['c','o','u','p','e']] rfl (by decide)

/-! ## Parsing boundary (claim C8) -/

/-- C8: `parse_hints` succeeds exactly on case-insensitive five-character
strings over {g, y, b}, mapping g to Green, y to Yellow and b to Black,
and `parse_guess_and_hints` fails whenever the input does not split into
exactly two comma-separated parts. -/
theorem C8_parse_hints (s : List Char) :
    (isOk (parseHints s) = true ↔
      (s.map Char.toLower).length = 5 ∧
        ∀ c ∈ s.map Char.toLower, c = 'g' ∨ c = 'y' ∨ c = 'b')
    ∧ (∀ hs, parseHints s = Except.ok hs → hs = (s.map Char.toLower).map hintOfChar)
    ∧ hintOfChar 'g' = Hint.Green ∧ hintOfChar 'y' = Hint.Yellow
    ∧ hintOfChar 'b' = Hint.Black
    ∧ (∀ t : List Char, (t.splitOn ',').length ≠ 2 →
        ∃ e, parseGuessAndHints t = Except.error e) := by
  refine ⟨?_, ?_, rfl, rfl, rfl, ?_⟩
  · rw [parseHints]
    by_cases hlen : (s.map Char.toLower).length = 5
    · rw [if_neg (by rw [Word.SIZE]; omega)]
      by_cases hall :
          ((s.map Char.toLower).all fun c => c == 'g' || c == 'y' || c == 'b') = true
      · rw [if_neg (by simp [hall])]
        have hchars : ∀ c ∈ s.map Char.toLower, c = 'g' ∨ c = 'y' ∨ c = 'b' := by
          intro c hc
          have h1 := List.all_eq_true.mp hall c hc
          simp only [Bool.or_eq_true, beq_iff_eq] at h1
          tauto
        exact iff_of_true rfl ⟨hlen, hchars⟩
      · rw [if_pos hall]
        refine iff_of_false (by simp [isOk]) ?_
        rintro ⟨_, hchars⟩
        apply hall
        rw [List.all_eq_true]
        intro c hc
        rcases hchars c hc with rfl | rfl | rfl <;> simp
    · rw [if_pos (by rw [Word.SIZE]; omega)]
      refine iff_of_false (by simp [isOk]) ?_
      rintro ⟨h, _⟩
      exact hlen h
  · intro hs hok
    rw [parseHints] at hok
    by_cases hlen : (s.map Char.toLower).length ≠ Word.SIZE
    · rw [if_pos hlen] at hok
      cases hok
    · rw [if_neg hlen] at hok
      by_cases hall : ¬ ((s.map Char.toLower).all fun c => c == 'g' || c == 'y' || c == 'b') = true
      · rw [if_pos hall] at hok
        cases hok
      · rw [if_neg hall] at hok
        exact (Except.ok.inj hok).symm
  · intro t hsplit
    rw [parseGuessAndHints]
    cases hp : t.splitOn ',' with
    | nil => exact ⟨_, rfl⟩
    | cons a rest =>
      cases rest with
      | nil => exact ⟨_, rfl⟩
      | cons b rest2 =>
        cases rest2 with
        | nil =>
          exfalso
          apply hsplit
          rw [hp]
          rfl
        | cons d rest3 => exact ⟨_, rfl⟩

/-- Witness for C8: a mixed-case valid hint string, its decoded hints, and
a token with no comma. -/
theorem C8_parse_hints_witness :
    (isOk (parseHints ['G','y','B','g','b']) = true)
    ∧ ([Hint.Green, Hint.Yellow, Hint.Black, Hint.Green, Hint.Black]
        = (['g','y','b','g','b'].map Char.toLower).map hintOfChar)
    ∧ ∃ e, parseGuessAndHints ['x'] = Except.error e :=
  ⟨(C8_parse_hints ['G','y','B','g','b']).1.mpr (by decide),
    (C8_parse_hints ['g','y','b','g','b']).2.1
      [Hint.Green, Hint.Yellow, Hint.Black, Hint.Green, Hint.Black] rfl,
    (C8_parse_hints ['x']).2.2.2.2.2 ['x'] (by decide)⟩

end Wools

section Scratch
open Wools

-- doctest of from_solution_and_guess: solution "stunt", guess "attic"
example :
    Pattern.fromSolutionAndGuess
      ['s','t','u','n','t'] ['a','t','t','i','c'] =
    some ⟨['a','t','t','i','c'],
      [Hint.Black, Hint.Green, Hint.Yellow, Hint.Black, Hint.Black]⟩ := by
  decide

example :
    specHints ['s','t','u','n','t'] ['a','t','t','i','c'] =
      [Hint.Black, Hint.Green, Hint.Yellow, Hint.Black, Hint.Black] := by
  decide

-- constraint doctest: solution "apple", guess "prime"; "spade" matches, "forgo" not
example :
    (Pattern.fromSolutionAndGuess ['a','p','p','l','e'] ['p','r','i','m','e']).map
      (fun p => (Constraints.matches (Constraints.fromPattern p) ['s','p','a','d','e'],
                 Constraints.matches (Constraints.fromPattern p) ['f','o','r','g','o'])) =
    some (true, false) := by
  decide

end Scratch
